import Mathlib

/-!
# Walker: an iterative directory-tree traversal

A shallow embedding of `walker.go` and `stack/stack.go`.

* `Stack` follows `stack/stack.go`: a slice with the top at the end.
* `FS` is the storage the walker is built on: the two calls the walker makes
  on it, `fs.Stat` and `fs.ReadDir`, as functions from a path to the pair of
  results the Go call returns.
* `walkBody` is one iteration of the loop of `Walk`, `walkLoop` is the loop,
  `Walk` and `MustWalk` are the two entry points.
* The callback is a state-passing function; what it returns is either a
  boolean or a panic.  A run records the invocations of the callback and the
  storage calls made, in order.
-/

namespace Walker

/-! ## stack/stack.go -/

/-- A Stack is a generic LIFO queue: `entries` is the slice, the top is its last element. -/
structure Stack (α : Type) where
  entries : List α
deriving DecidableEq, Repr

namespace Stack

variable {α : Type}

/-- New instantiates a new stack of a given type. -/
def New : Stack α := ⟨[]⟩

/-- Empty returns true if there are no items in the stack. -/
def Empty (s : Stack α) : Bool := s.entries.length == 0

/-- Push adds an item to the stack (`append(s.entries, el)`). -/
def Push (s : Stack α) (el : α) : Stack α := ⟨s.entries ++ [el]⟩

/-- The zero value of the element type. -/
def zero [Inhabited α] (_s : Stack α) : α := default

/-- Peek returns the item at the top of the stack or the zero value if the stack is empty. -/
def Peek [Inhabited α] (s : Stack α) : α :=
  if s.entries.length == 0 then s.zero
  else s.entries.getD (s.entries.length - 1) s.zero

/-- Pop removes and returns the item at the top of the stack or the zero
value if the stack is empty: the value returned and the stack afterwards. -/
def Pop [Inhabited α] (s : Stack α) : α × Stack α :=
  let i : Int := (s.entries.length : Int) - 1
  if i == -1 then (s.zero, s)
  else (s.entries.getD i.toNat s.zero, ⟨s.entries.take i.toNat⟩)

end Stack

/-! ## The storage and the callback -/

/-- The part of `fs.FileInfo` the walker and its callers read. -/
structure FileInfo where
  name : String
  isDir : Bool
  size : Int
deriving DecidableEq, Repr

/-- The part of `fs.DirEntry` the walker reads. -/
structure DirEntry where
  name : String
  isDir : Bool
deriving DecidableEq, Repr

/-- The storage: `stat p` is what `fs.Stat(w.fs, p)` returns, `readDir p` is
what `fs.ReadDir(w.fs, p)` returns.  Each is the pair of a Go call's two
results, so all four combinations of nil and non-nil are possible. -/
structure FS (ε : Type) where
  stat : String → Option FileInfo × Option ε
  readDir : String → List DirEntry × Option ε

/-- What a call of the callback does: it returns a boolean or it panics. -/
inductive CbResult (ε : Type) where
  | ret (b : Bool)
  | panic (v : ε)
deriving DecidableEq, Repr

/-- WalkFunc: the callback passed to Walk, with the state it closes over. -/
abbrev WalkFunc (σ ε : Type) := σ → String → Option FileInfo → Option ε → CbResult ε × σ

/-- MustWalkFunc: the callback passed to MustWalk, with the state it closes over. -/
abbrev MustWalkFunc (σ : Type) := σ → String → Option FileInfo → Bool × σ

/-- One invocation of the callback: its three arguments and what it did. -/
structure Invocation (ε : Type) where
  path : String
  entry : Option FileInfo
  err : Option ε
  result : CbResult ε
deriving DecidableEq, Repr

/-- A call made on the storage. -/
inductive StoreOp where
  | stat (path : String)
  | readDir (path : String)
deriving DecidableEq, Repr

/-- How a run ended: the stack was exhausted, the callback returned false,
the callback panicked, or the run was cut off before the loop ended. -/
inductive Status (ε : Type) where
  | done
  | stopped
  | panicked (v : ε)
  | outOfFuel
deriving DecidableEq, Repr

/-- A run of the walker: the invocations of the callback in order, the
storage calls in order, the callback's final state and how the run ended. -/
structure Run (σ ε : Type) where
  trace : List (Invocation ε)
  ops : List StoreOp
  state : σ
  status : Status ε
deriving DecidableEq, Repr

/-- The run `r` preceded by the invocations `invs` and the storage calls `ops`. -/
def Run.after {σ ε : Type} (invs : List (Invocation ε)) (ops : List StoreOp)
    (r : Run σ ε) : Run σ ε :=
  { r with trace := invs ++ r.trace, ops := ops ++ r.ops }

/-! ## path/filepath (Unix) -/

/-- The path separator test of `os.IsPathSeparator` on Unix. -/
def isSep (c : Char) : Bool := c == '/'

/-- The inner loop of the `..` case of `Clean`: `c` is the byte at the write
index, `rev` the buffer before it, reversed. -/
def backtrackLoop (dotdot : Nat) : Char → List Char → List Char
  | _, [] => []
  | c, c' :: rest =>
    if (c' :: rest).length > dotdot && !isSep c then backtrackLoop dotdot c' rest
    else c' :: rest

/-- The `..` case of `Clean` when it can backtrack: `out.w--` and then the
loop that removes up to the last separator. -/
def backtrack (out : List Char) (dotdot : Nat) : List Char :=
  match out.reverse with
  | [] => []
  | c :: rest => (backtrackLoop dotdot c rest).reverse

/-- The main loop of `filepath.Clean`: `r` is the read index into `path`,
`out` the bytes written so far, `dotdot` the index where `..` must stop. -/
def cleanLoop (path : List Char) (n : Nat) (rooted : Bool) :
    Nat → Nat → List Char → Nat → List Char
  | 0, _, out, _ => out
  | fuel + 1, r, out, dotdot =>
    if r < n then
      if isSep (path.getD r ' ') then
        cleanLoop path n rooted fuel (r + 1) out dotdot
      else if path.getD r ' ' == '.' && (r + 1 == n || isSep (path.getD (r + 1) ' ')) then
        cleanLoop path n rooted fuel (r + 1) out dotdot
      else if path.getD r ' ' == '.' && path.getD (r + 1) ' ' == '.'
          && (r + 2 == n || isSep (path.getD (r + 2) ' ')) then
        if out.length > dotdot then
          cleanLoop path n rooted fuel (r + 2) (backtrack out dotdot) dotdot
        else if !rooted then
          let out1 := if out.length > 0 then out ++ ['/'] else out
          let out2 := out1 ++ ['.', '.']
          cleanLoop path n rooted fuel (r + 2) out2 out2.length
        else
          cleanLoop path n rooted fuel (r + 2) out dotdot
      else
        let out1 :=
          if (rooted && out.length != 1) || (!rooted && out.length != 0) then out ++ ['/']
          else out
        let el := (path.drop r).takeWhile (fun c => !isSep c)
        cleanLoop path n rooted fuel (r + el.length) (out1 ++ el) dotdot
    else out

/-- The function `filepath.Clean` on Unix, on the bytes of the path.  The loop
reads at least one byte per iteration, so `n` iterations are enough. -/
def cleanChars (path : List Char) : List Char :=
  if path.isEmpty then ['.']
  else
    let rooted := isSep (path.getD 0 ' ')
    let n := path.length
    let out :=
      if rooted then cleanLoop path n rooted n 1 ['/'] 1
      else cleanLoop path n rooted n 0 [] 0
    if out.length == 0 then ['.'] else out

/-- The function `filepath.Clean` on Unix. -/
def filepathClean (path : String) : String := String.mk (cleanChars path.data)

/-- The call `filepath.Join(dir, name)` on Unix: the elements from the first
non-empty one on are joined with the separator and the result is cleaned; if
both are empty the result is the empty string. -/
def filepathJoin (dir name : String) : String :=
  if dir.data.isEmpty then
    if name.data.isEmpty then "" else filepathClean name
  else String.mk (cleanChars (dir.data ++ '/' :: name.data))

/-! ## walker.go -/

/-- The type of `sort.Slice` at slices of directory entries, the comparison
taken on elements. -/
abbrev SortSlice := (DirEntry → DirEntry → Bool) → List DirEntry → List DirEntry

/-- The comparison `Walk` passes to `sort.Slice`:
`entries[i].IsDir() && !entries[j].IsDir()`. -/
def dirFirst (a b : DirEntry) : Bool := a.isDir && !b.isDir

/-- The test `entry != nil && entry.IsDir()`. -/
def entryIsDir : Option FileInfo → Bool
  | some e => e.isDir
  | none => false

/-- What one iteration of the loop of `Walk` does: it returns from `Walk`, or
it goes on to the next iteration with a new stack. -/
inductive Step (σ ε : Type) where
  | ret (status : Status ε) (st : σ) (invs : List (Invocation ε)) (ops : List StoreOp)
  | next (s : Stack String) (st : σ) (invs : List (Invocation ε)) (ops : List StoreOp)

/-- The body of the loop of `Walk` after the pop (walker.go, lines 45 to 65):
`path` is the path popped, `s` the stack after the pop and `st` the state of
the callback. -/
def walkBody {σ ε : Type} (w : FS ε) (sortSlice : SortSlice) (fn : WalkFunc σ ε)
    (path : String) (s : Stack String) (st : σ) : Step σ ε :=
  let (entry, err) := w.stat path
  match fn st path entry err with
  | (.panic v, st) => .ret (.panicked v) st [⟨path, entry, err, .panic v⟩] [.stat path]
  | (.ret false, st) => .ret .stopped st [⟨path, entry, err, .ret false⟩] [.stat path]
  | (.ret true, st) =>
    if entryIsDir entry then
      let (entries, err1) := w.readDir path
      match err1 with
      | some e =>
        match fn st path entry (some e) with
        | (.ret true, st1) =>
          .next s st1 [⟨path, entry, err, .ret true⟩, ⟨path, entry, some e, .ret true⟩]
            [.stat path, .readDir path]
        | (.ret false, st1) =>
          .ret .stopped st1 [⟨path, entry, err, .ret true⟩, ⟨path, entry, some e, .ret false⟩]
            [.stat path, .readDir path]
        | (.panic v, st1) =>
          .ret (.panicked v) st1
            [⟨path, entry, err, .ret true⟩, ⟨path, entry, some e, .panic v⟩]
            [.stat path, .readDir path]
      | none =>
        let sorted := sortSlice dirFirst entries
        let s1 := sorted.reverse.foldl (fun acc e => acc.Push (filepathJoin path e.name)) s
        .next s1 st [⟨path, entry, err, .ret true⟩] [.stat path, .readDir path]
    else
      .next s st [⟨path, entry, err, .ret true⟩] [.stat path]

/-- The loop `for !s.Empty() { path := s.Pop(); ... }` of `Walk`, for at most
`fuel` iterations. -/
def walkLoop {σ ε : Type} (w : FS ε) (sortSlice : SortSlice) (fn : WalkFunc σ ε) :
    Nat → Stack String → σ → Run σ ε
  | 0, s, st => if s.Empty then ⟨[], [], st, .done⟩ else ⟨[], [], st, .outOfFuel⟩
  | fuel + 1, s, st =>
    if s.Empty then ⟨[], [], st, .done⟩
    else
      let (path, s0) := s.Pop
      match walkBody w sortSlice fn path s0 st with
      | .ret status st1 invs ops => ⟨invs, ops, st1, status⟩
      | .next s1 st1 invs ops => (walkLoop w sortSlice fn fuel s1 st1).after invs ops

/-- The method `Walk`: a new stack, the root pushed, then the loop. -/
def Walk {σ ε : Type} (w : FS ε) (sortSlice : SortSlice) (fuel : Nat) (dir : String)
    (fn : WalkFunc σ ε) (st : σ) : Run σ ε :=
  walkLoop w sortSlice fn fuel ((Stack.New : Stack String).Push dir) st

/-- The closure `MustWalk` passes to `Walk`: it panics with the error when
there is one and calls `fn` otherwise.  Its state is the state of `fn` and
the record of the calls of `fn`: path, entry and the boolean returned. -/
def mustShim {σ ε : Type} (fn : MustWalkFunc σ) :
    WalkFunc (σ × List (String × Option FileInfo × Bool)) ε :=
  fun st path entry err =>
    match err with
    | some e => (.panic e, st)
    | none =>
      let (b, st1) := fn st.1 path entry
      (.ret b, (st1, st.2 ++ [(path, entry, b)]))

/-- The method `MustWalk`: `Walk` with the panicking closure. -/
def MustWalk {σ ε : Type} (w : FS ε) (sortSlice : SortSlice) (fuel : Nat) (dir : String)
    (fn : MustWalkFunc σ) (st : σ) : Run (σ × List (String × Option FileInfo × Bool)) ε :=
  Walk w sortSlice fuel dir (mustShim fn) (st, [])

/-! ## A sort and stores to run the walker on -/

/-- Insertion of `x` at the end of a sorted slice, as the insertion sort of
the Go `sort` package does it: `x` moves down past every element it is less than.
The slice is given reversed. -/
def insertBack (less : DirEntry → DirEntry → Bool) (x : DirEntry) : List DirEntry → List DirEntry
  | [] => [x]
  | y :: rev => if less x y then y :: insertBack less x rev else x :: y :: rev

/-- Insertion sort, the sort `sort.Slice` of Go 1.19 and later runs on slices
of at most 12 elements. -/
def insertionSortFunc : SortSlice :=
  fun less l => (l.foldl (fun rev x => insertBack less x rev) []).reverse

/-- Whether the loop goes on after a call of the callback: only when it returned true. -/
def CbResult.continues {ε : Type} : CbResult ε → Bool
  | .ret true => true
  | _ => false

/-- The run that ends at once because the callback returned false or panicked. -/
def endRun {σ ε : Type} (res : CbResult ε) (st : σ) : Run σ ε :=
  match res with
  | .panic v => ⟨[], [], st, .panicked v⟩
  | .ret _ => ⟨[], [], st, .stopped⟩

/-- The errors of the mock storage of walker_test.go: `fs.ErrNotExist`,
`fs.ErrPermission` and `&fs.PathError{}`. -/
inductive MockErr where
  | notExist
  | permission
  | pathError
deriving DecidableEq, Repr

/-- The callback `collect` of walker_test.go: on a permission error it returns
`continueOnStatError`, on any other error `continueOnDirError`, else true. -/
def collect (continueOnStatError continueOnDirError : Bool) : WalkFunc Unit MockErr :=
  fun st _ _ err =>
    match err with
    | some .permission => (.ret continueOnStatError, st)
    | some _ => (.ret continueOnDirError, st)
    | none => (.ret true, st)

/-- The storage of the first test of walker_test.go: the stat of `a` fails. -/
def statFailStore : FS MockErr where
  stat p :=
    if p = "a" then (none, some .permission)
    else if p = "b" then (some ⟨"b", false, 0⟩, none)
    else (none, some .notExist)
  readDir p :=
    if p = "a" then ([], none)
    else if p = "b" then ([], none)
    else ([], some .notExist)

/-- The storage of the second test of walker_test.go: `a` is a directory whose
listing fails. -/
def listFailStore : FS MockErr where
  stat p := if p = "a" then (some ⟨"a", true, 0⟩, none) else (none, some .notExist)
  readDir p := if p = "a" then ([], some .pathError) else ([], some .notExist)

/-- The storage of the third test of walker_test.go: the tree `a` (directory),
`a/b` (directory whose listing fails), `a/b/c` (file), `a/d` (file). -/
def skipStore : FS MockErr where
  stat p :=
    if p = "a" then (some ⟨"a", true, 0⟩, none)
    else if p = "a/b" then (some ⟨"b", true, 0⟩, none)
    else if p = "a/b/c" then (some ⟨"c", false, 0⟩, none)
    else if p = "a/d" then (some ⟨"d", false, 0⟩, none)
    else (none, some .notExist)
  readDir p :=
    if p = "a" then ([⟨"b", true⟩, ⟨"d", false⟩], none)
    else if p = "a/b" then ([], some .pathError)
    else if p = "a/b/c" then ([], none)
    else if p = "a/d" then ([], none)
    else ([], some .notExist)

/-- The shape of the trace of a run: every invocation returned true and the
run ended with the stack exhausted or was cut off, or every invocation but
the last returned true and the last one ended the run. -/
def Run.WellFormed {σ ε : Type} (r : Run σ ε) : Prop :=
  ((r.status = .done ∨ r.status = .outOfFuel) ∧ ∀ x ∈ r.trace, x.result = .ret true) ∨
  (∃ pre last, r.trace = pre ++ [last] ∧ (∀ x ∈ pre, x.result = .ret true) ∧
    last.result.continues = false ∧ r.status = (endRun last.result r.state).status)

/-- The paths of the children of `path` in the order in which the loop of
`Walk` pops them: the listing sorted, each name joined to `path`. -/
def childPaths (sortSlice : SortSlice) (path : String) (entries : List DirEntry) :
    List String :=
  (sortSlice dirFirst entries).map (fun e => filepathJoin path e.name)

/-- The callback `f(path, metadata, err) = g(path, metadata)`: the callback of
`MustWalk` used as a callback of `Walk`, the error ignored. -/
def liftMust {σ ε : Type} (g : MustWalkFunc σ) : WalkFunc σ ε :=
  fun st path entry _ => ((CbResult.ret (g st path entry).1), (g st path entry).2)

/-- The call of the user's callback that an error-free invocation of the
closure of `MustWalk` makes: path, entry and the boolean returned. -/
def Invocation.call {ε : Type} (x : Invocation ε) : String × Option FileInfo × Bool :=
  (x.path, x.entry, x.result.continues)

/-- The invocation of the closure of `MustWalk` that makes the call `c` of the
user's callback: no error, and the closure returns what the user's callback returned. -/
def callInvocation {ε : Type} (c : String × Option FileInfo × Bool) : Invocation ε :=
  ⟨c.1, c.2.1, none, .ret c.2.2⟩

/-- The error a storage call returns. -/
def FS.opErr {ε : Type} (w : FS ε) : StoreOp → Option ε
  | .stat p => (w.stat p).2
  | .readDir p => (w.readDir p).2

/-- The shape of a run of `MustWalk` whose record of calls started as `l`: the
calls `calls` of the user's callback were added to the record, and either the
trace is the invocations that made these calls, the run did not panic and no
storage call failed, or the trace is these invocations followed by one
invocation with an error `e`, the run panicked with `e`, and the last storage
call is the first that failed and returned `e`. -/
def MustShape {σ ε : Type} (w : FS ε) (l : List (String × Option FileInfo × Bool))
    (r : Run (σ × List (String × Option FileInfo × Bool)) ε) : Prop :=
  ∃ calls, r.state.2 = l ++ calls ∧
    ((r.trace = calls.map callInvocation ∧ (∀ v, r.status ≠ .panicked v) ∧
        ∀ o ∈ r.ops, w.opErr o = none) ∨
      (∃ p entry e pre op,
        r.trace = calls.map callInvocation ++ [⟨p, entry, some e, .panic e⟩] ∧
        r.status = .panicked e ∧ r.ops = pre ++ [op] ∧ (∀ o ∈ pre, w.opErr o = none) ∧
        w.opErr op = some e))

/-- A storage without failures: the tree `a` (directory) with the children
`a/b` (file) and `a/c` (directory), and `a/c/d` (file); listings are in the
order of the names. -/
def treeStore : FS MockErr where
  stat p :=
    if p = "a" then (some ⟨"a", true, 0⟩, none)
    else if p = "a/b" then (some ⟨"b", false, 3⟩, none)
    else if p = "a/c" then (some ⟨"c", true, 0⟩, none)
    else if p = "a/c/d" then (some ⟨"d", false, 5⟩, none)
    else (none, some .notExist)
  readDir p :=
    if p = "a" then ([⟨"b", false⟩, ⟨"c", true⟩], none)
    else if p = "a/c" then ([⟨"d", false⟩], none)
    else ([], some .notExist)

/-- A storage whose root directory `.` holds the one file `a`. -/
def dotStore : FS MockErr where
  stat p :=
    if p = "." then (some ⟨".", true, 0⟩, none)
    else if p = "a" then (some ⟨"a", false, 1⟩, none)
    else (none, some .notExist)
  readDir p :=
    if p = "." then ([⟨"a", false⟩], none)
    else ([], some .notExist)

/-- The callback that always returns true. -/
def always {ε : Type} : WalkFunc Unit ε := fun st _ _ _ => (.ret true, st)

/-- Whether the store below `p` is a tree of depth at most `d` without
failures: the stat of `p` succeeds with metadata, and if the metadata is a
directory the listing of `p` succeeds and the same holds, with depth one less,
of the path of each entry listed. -/
def errorFreeTree {ε : Type} (w : FS ε) : Nat → String → Bool
  | 0, _ => false
  | d + 1, p =>
    match w.stat p with
    | (some info, none) =>
      if info.isDir then
        match w.readDir p with
        | (entries, none) => entries.all (fun e => errorFreeTree w d (filepathJoin p e.name))
        | _ => false
      else true
    | _ => false

/-- The entries at and below `p`, to the depth `d`, in depth-first pre-order:
`p` with its metadata, then for each entry of the listing of `p`, taken in the
order `order` puts the listing in, that entry and all that is below it. -/
def preorder {ε : Type} (order : List DirEntry → List DirEntry) (w : FS ε) :
    Nat → String → List (String × FileInfo)
  | 0, _ => []
  | d + 1, p =>
    match (w.stat p).1 with
    | none => []
    | some info =>
      (p, info) ::
        (if info.isDir then
          (order (w.readDir p).1).flatMap (fun e => preorder order w d (filepathJoin p e.name))
        else [])

/-- The invocation of the callback for an entry, with its metadata and no
error, the callback returning true. -/
def okInvocation {ε : Type} (e : String × FileInfo) : Invocation ε :=
  ⟨e.1, some e.2, none, .ret true⟩

/-- The step `t` with the paths `base` put beneath its stack. -/
def Step.under {σ ε : Type} (base : List String) : Step σ ε → Step σ ε
  | .ret status st invs ops => .ret status st invs ops
  | .next s st invs ops => .next ⟨base ++ s.entries⟩ st invs ops

/-! ## The stack under sequences of operations -/

/-- Push of the items of `xs`, in order. -/
def Stack.pushAll {α : Type} (s : Stack α) (xs : List α) : Stack α :=
  xs.foldl Stack.Push s

/-- Pop called `n` times: the items returned, in the order in which they were
returned, and the stack afterwards. -/
def Stack.popN {α : Type} [Inhabited α] : Nat → Stack α → List α × Stack α
  | 0, s => ([], s)
  | n + 1, s => ((s.Pop.1 :: (Stack.popN n s.Pop.2).1), (Stack.popN n s.Pop.2).2)

/-- A call of one of the methods of a stack that may change it or read it. -/
inductive StackOp (α : Type) where
  | push (x : α)
  | pop
  | peek
deriving DecidableEq, Repr

/-- The stack after a call: Push appends, Pop drops the top if there is one,
Peek does not assign to the slice. -/
def Stack.apply {α : Type} [Inhabited α] (s : Stack α) : StackOp α → Stack α
  | .push x => s.Push x
  | .pop => s.Pop.2
  | .peek => s

/-- The stack reached from `s` by a sequence of calls. -/
def Stack.run {α : Type} [Inhabited α] (s : Stack α) (ops : List (StackOp α)) : Stack α :=
  ops.foldl Stack.apply s

/-- The number of calls of Push in a sequence of calls. -/
def StackOp.pushes {α : Type} : List (StackOp α) → Nat
  | [] => 0
  | .push _ :: ops => StackOp.pushes ops + 1
  | _ :: ops => StackOp.pushes ops

/-- The number of calls of Pop, in a sequence of calls made from the stack
`s`, that found the stack non-empty and so removed an item. -/
def StackOp.effectivePops {α : Type} [Inhabited α] : Stack α → List (StackOp α) → Nat
  | _, [] => 0
  | s, .pop :: ops =>
    (if s.Empty then 0 else 1) + StackOp.effectivePops (s.apply .pop) ops
  | s, op :: ops => StackOp.effectivePops (s.apply op) ops

/-- The invocations of the callback made in one iteration. -/
def Step.invs {σ ε : Type} : Step σ ε → List (Invocation ε)
  | .ret _ _ invs _ => invs
  | .next _ _ invs _ => invs

/-- The storage calls made in one iteration. -/
def Step.ops {σ ε : Type} : Step σ ε → List StoreOp
  | .ret _ _ _ ops => ops
  | .next _ _ _ ops => ops

/-! ## Where the paths come from -/

/-- Where a path `q` comes from, given the invocations `hist` made before: it
is the root, or it is the join of the path of an earlier invocation, whose
metadata was a directory and whose listing succeeded, with the name of an
entry of that listing. -/
def Origin {ε : Type} (w : FS ε) (root : String) (hist : List (Invocation ε))
    (q : String) : Prop :=
  q = root ∨
  ∃ y ∈ hist, ∃ info e, y.entry = some info ∧ (w.stat y.path).1 = some info ∧
    info.isDir = true ∧ (w.readDir y.path).2 = none ∧ e ∈ (w.readDir y.path).1 ∧
    q = filepathJoin y.path e.name

/-- The paths below `root` in the store: `root`, and the join of a path below
`root`, whose metadata is a directory and whose listing succeeds, with the name
of an entry of that listing. -/
inductive Below {ε : Type} (w : FS ε) (root : String) : String → Prop where
  | root : Below w root root
  | child (p : String) (info : FileInfo) (e : DirEntry) :
      Below w root p → (w.stat p).1 = some info → info.isDir = true →
      (w.readDir p).2 = none → e ∈ (w.readDir p).1 →
      Below w root (filepathJoin p e.name)

/-- The three arguments of an invocation of the callback: path, metadata and error. -/
def Invocation.args {ε : Type} (x : Invocation ε) : String × Option FileInfo × Option ε :=
  (x.path, x.entry, x.err)

/-! ## Finite trees with failures -/

/-- Whether the store below `p` is a tree of depth at most `d`, failures of
stat and of listings placed anywhere: if the stat of `p` returns directory
metadata and the listing of `p` succeeds, the same holds, with depth one less,
of the path of each entry listed; a path that is not listed further is a leaf. -/
def boundedTree {ε : Type} (w : FS ε) : Nat → String → Bool
  | 0, _ => false
  | d + 1, p =>
    if entryIsDir (w.stat p).1 && (w.readDir p).2.isNone then
      (w.readDir p).1.all (fun e => boundedTree w d (filepathJoin p e.name))
    else true

/-- The number of entries at and below `p`, to the depth `d`. -/
def treeSize {ε : Type} (w : FS ε) : Nat → String → Nat
  | 0, _ => 0
  | d + 1, p =>
    1 + (if entryIsDir (w.stat p).1 && (w.readDir p).2.isNone then
      ((w.readDir p).1.map (fun e => treeSize w d (filepathJoin p e.name))).sum
    else 0)

/-! ## The sort of Go 1.18 and a directory with seven entries -/

/-- The pass of Shell sort with gap 6 that `sort.Slice` of Go 1.18 runs before
insertion sort on slices of at most 12 elements:
`for i := a + 6; i < b; i++ { if less(i, i-6) { swap(i, i-6) } }`.
The head of the list is the element at `i-6`; once compared it is not touched
again, so the pass goes on with the tail. -/
def shellPass (less : DirEntry → DirEntry → Bool) : Nat → List DirEntry → List DirEntry
  | 0, l => l
  | _ + 1, [] => []
  | fuel + 1, x :: rest =>
    match rest.get? 5 with
    | some y =>
      if less y x then y :: shellPass less fuel (rest.set 5 x)
      else x :: shellPass less fuel rest
    | none => x :: rest

/-- The sort `sort.Slice` of Go 1.18 runs on slices of at most 12 elements: the
pass of Shell sort with gap 6, then insertion sort. -/
def shellSortFunc : SortSlice :=
  fun less l => insertionSortFunc less (shellPass less l.length l)

/-- A storage without failures: the directory `a` with the files `a/a` to
`a/f` and the empty directory `a/g`; the listing is in the order of the names. -/
def sevenStore : FS MockErr where
  stat p :=
    if p = "a" then (some ⟨"a", true, 0⟩, none)
    else if p = "a/a" then (some ⟨"a", false, 0⟩, none)
    else if p = "a/b" then (some ⟨"b", false, 0⟩, none)
    else if p = "a/c" then (some ⟨"c", false, 0⟩, none)
    else if p = "a/d" then (some ⟨"d", false, 0⟩, none)
    else if p = "a/e" then (some ⟨"e", false, 0⟩, none)
    else if p = "a/f" then (some ⟨"f", false, 0⟩, none)
    else if p = "a/g" then (some ⟨"g", true, 0⟩, none)
    else (none, some .notExist)
  readDir p :=
    if p = "a" then
      ([⟨"a", false⟩, ⟨"b", false⟩, ⟨"c", false⟩, ⟨"d", false⟩, ⟨"e", false⟩, ⟨"f", false⟩,
        ⟨"g", true⟩], none)
    else if p = "a/g" then ([], none)
    else ([], some .notExist)

/-! ## Paths that `filepath.Clean` leaves as they are -/

/-- Whether `cs` is the name of one path element that `io/fs` accepts: not
empty, without a separator, and neither `.` nor `..`. -/
def plainName (cs : List Char) : Bool :=
  !cs.isEmpty && cs.all (fun c => !isSep c) && cs != ['.'] && cs != ['.', '.']

/-- The path whose elements are `elems`, joined by the separator. -/
def joinElems : List (List Char) → List Char
  | [] => []
  | [e] => e
  | e :: es => e ++ '/' :: joinElems es

/-- A storage without failures whose root directory `.` holds the directory
`d`, which holds the file `x`. -/
def dotTreeStore : FS MockErr where
  stat p :=
    if p = "." then (some ⟨".", true, 0⟩, none)
    else if p = "d" then (some ⟨"d", true, 0⟩, none)
    else if p = "d/x" then (some ⟨"x", false, 1⟩, none)
    else (none, some .notExist)
  readDir p :=
    if p = "." then ([⟨"d", true⟩], none)
    else if p = "d" then ([⟨"x", false⟩], none)
    else ([], some .notExist)

/-! ## The steps of the store in a trace -/

/-- An invocation reports what the store returned for its path: it is the
stat invocation, with the metadata and the error the stat of the path
returned, or it is the list-error invocation, with the metadata the stat
returned, a directory, and the error the listing of the path returned. -/
def StoreStep {ε : Type} (w : FS ε) (x : Invocation ε) : Prop :=
  (x.entry, x.err) = w.stat x.path ∨
  (x.entry = (w.stat x.path).1 ∧ entryIsDir x.entry = true ∧
    x.err = (w.readDir x.path).2 ∧ x.err ≠ none)

/-- The error of the first invocation of a trace that carries an error. -/
def firstErr {ε : Type} : List (Invocation ε) → Option ε
  | [] => none
  | x :: rest =>
    match x.err with
    | some v => some v
    | none => firstErr rest

/-! ## Paths beneath a path -/

/-- The path `q` is made of plain elements joined by the separator. -/
def PlainPath (q : String) : Prop :=
  ∃ elems, elems ≠ [] ∧ (∀ e ∈ elems, plainName e = true) ∧ q.data = joinElems elems

/-- The path `q` is beneath the path `p`: it is `p`, the separator, and one
or more plain elements joined by the separator. -/
def Beneath (p q : String) : Prop :=
  ∃ rest, rest ≠ [] ∧ (∀ e ∈ rest, plainName e = true) ∧
    q.data = p.data ++ '/' :: joinElems rest

/-- A storage in which the listing of `a` names an entry `b/c` with a
separator in it: `a` (directory), `a/b` (directory whose listing fails),
`a/b/c` (file), `a/d` (file). -/
def slashStore : FS MockErr where
  stat p :=
    if p = "a" then (some ⟨"a", true, 0⟩, none)
    else if p = "a/b" then (some ⟨"b", true, 0⟩, none)
    else if p = "a/b/c" then (some ⟨"c", false, 0⟩, none)
    else if p = "a/d" then (some ⟨"d", false, 0⟩, none)
    else (none, some .notExist)
  readDir p :=
    if p = "a" then ([⟨"b", true⟩, ⟨"b/c", false⟩, ⟨"d", false⟩], none)
    else if p = "a/b" then ([], some .pathError)
    else ([], some .notExist)

end Walker

/-! # Theorems -/

namespace Walker

variable {σ ε : Type}

/-! ## The stack -/

theorem Stack.empty_new {α : Type} : (Stack.New : Stack α).Empty = true := rfl

theorem Stack.empty_push {α : Type} (s : Stack α) (x : α) : (s.Push x).Empty = false := by
  simp [Stack.Empty, Stack.Push]

theorem Stack.pop_push {α : Type} [Inhabited α] (s : Stack α) (x : α) :
    (s.Push x).Pop = (x, s) := by
  obtain ⟨l⟩ := s
  have h : ((l.length : Int) + 1 - 1 == -1) = false := by
    simp only [beq_eq_false_iff_ne, ne_eq]
    omega
  simp [Stack.Pop, Stack.Push, h, List.getD_append_right]

theorem Stack.eq_push_of_not_empty {α : Type} (s : Stack α) (h : s.Empty = false) :
    ∃ s0 x, s = Stack.Push s0 x := by
  obtain ⟨l⟩ := s
  have hne : l ≠ [] := by
    intro h0
    simp [Stack.Empty, h0] at h
  refine ⟨⟨l.dropLast⟩, l.getLast hne, ?_⟩
  simp [Stack.Push, List.dropLast_append_getLast hne]

theorem Stack.empty_iff {α : Type} (s : Stack α) : s.Empty = true ↔ s.entries = [] := by
  simp [Stack.Empty]

theorem foldl_push (f : DirEntry → String) (l : List DirEntry) (s : Stack String) :
    l.foldl (fun acc e => acc.Push (f e)) s = ⟨s.entries ++ l.map f⟩ := by
  induction l generalizing s with
  | nil => simp
  | cons a l ih =>
    rw [List.foldl_cons, ih]
    simp [Stack.Push]

/-! ## One iteration -/

theorem walkLoop_zero (w : FS ε) (ss : SortSlice) (fn : WalkFunc σ ε) (s : Stack String)
    (st : σ) :
    walkLoop w ss fn 0 s st
      = if s.Empty then ⟨[], [], st, .done⟩ else ⟨[], [], st, .outOfFuel⟩ := rfl

theorem walkLoop_empty (w : FS ε) (ss : SortSlice) (fn : WalkFunc σ ε) (fuel : Nat)
    (s : Stack String) (st : σ) (h : s.Empty = true) :
    walkLoop w ss fn fuel s st = ⟨[], [], st, .done⟩ := by
  cases fuel <;> simp [walkLoop, h]

theorem walkLoop_push (w : FS ε) (ss : SortSlice) (fn : WalkFunc σ ε) (fuel : Nat)
    (s : Stack String) (p : String) (st : σ) :
    walkLoop w ss fn (fuel + 1) (s.Push p) st
      = match walkBody w ss fn p s st with
        | .ret status st1 invs ops => ⟨invs, ops, st1, status⟩
        | .next s1 st1 invs ops => (walkLoop w ss fn fuel s1 st1).after invs ops := by
  simp [walkLoop, Stack.empty_push, Stack.pop_push]

/-! ## Single iterations: stat failures and list failures -/

theorem walkBody_stat_fail (w : FS ε) (ss : SortSlice) (fn : WalkFunc σ ε) (p : String)
    (s : Stack String) (st : σ) (serr : Option ε) (h : w.stat p = (none, serr)) :
    walkBody w ss fn p s st
      = if (fn st p none serr).1.continues then
          .next s (fn st p none serr).2 [⟨p, none, serr, (fn st p none serr).1⟩] [.stat p]
        else
          .ret (endRun (fn st p none serr).1 st).status (fn st p none serr).2
            [⟨p, none, serr, (fn st p none serr).1⟩] [.stat p] := by
  unfold walkBody
  simp only [h]
  rcases hfn : fn st p none serr with ⟨res, st1⟩
  rcases res with b | v
  · cases b <;> simp [CbResult.continues, endRun, entryIsDir]
  · simp [CbResult.continues, endRun]

/-- C9: when the stat of the popped path fails and returns no metadata, the
callback is invoked once for it, with no metadata and the error of the stat;
the only storage call is the stat, so no listing is attempted; and the loop
goes on with the stack beneath exactly when the callback returned true,
and ends there otherwise. -/
theorem walk_stat_failure (w : FS ε) (ss : SortSlice) (fn : WalkFunc σ ε) (fuel : Nat)
    (s : Stack String) (p : String) (st : σ) (e : ε) (h : w.stat p = (none, some e)) :
    walkLoop w ss fn (fuel + 1) (s.Push p) st
      = (if (fn st p none (some e)).1.continues then
            walkLoop w ss fn fuel s (fn st p none (some e)).2
          else endRun (fn st p none (some e)).1 (fn st p none (some e)).2).after
          [⟨p, none, some e, (fn st p none (some e)).1⟩] [.stat p] := by
  rw [walkLoop_push, walkBody_stat_fail w ss fn p s st (some e) h]
  rcases hfn : fn st p none (some e) with ⟨res, st1⟩
  rcases res with b | v
  · cases b <;> simp [CbResult.continues, endRun, Run.after]
  · simp [CbResult.continues, endRun, Run.after]

/-- The witness of `walk_stat_failure`: the first test of walker_test.go, where
the stat of the root fails and the callback returns false. -/
theorem walk_stat_failure_witness :
    statFailStore.stat "a" = (none, some MockErr.permission) ∧
    walkLoop statFailStore insertionSortFunc (collect false true) (0 + 1)
        ((Stack.New : Stack String).Push "a") ()
      = (if (collect false true () "a" none (some MockErr.permission)).1.continues then
            walkLoop statFailStore insertionSortFunc (collect false true) 0 Stack.New
              (collect false true () "a" none (some MockErr.permission)).2
          else endRun (collect false true () "a" none (some MockErr.permission)).1
              (collect false true () "a" none (some MockErr.permission)).2).after
          [⟨"a", none, some MockErr.permission,
            (collect false true () "a" none (some MockErr.permission)).1⟩] [.stat "a"] :=
  ⟨by decide,
    walk_stat_failure statFailStore insertionSortFunc (collect false true) 0 Stack.New "a" ()
      MockErr.permission (by decide)⟩

theorem walkBody_list_fail (w : FS ε) (ss : SortSlice) (fn : WalkFunc σ ε) (p : String)
    (s : Stack String) (st st1 : σ) (info : FileInfo) (serr : Option ε) (es : List DirEntry)
    (le : ε) (hstat : w.stat p = (some info, serr)) (hdir : info.isDir = true)
    (hlist : w.readDir p = (es, some le))
    (hfn : fn st p (some info) serr = (.ret true, st1)) :
    walkBody w ss fn p s st
      = if (fn st1 p (some info) (some le)).1.continues then
          .next s (fn st1 p (some info) (some le)).2
            [⟨p, some info, serr, .ret true⟩,
              ⟨p, some info, some le, (fn st1 p (some info) (some le)).1⟩]
            [.stat p, .readDir p]
        else
          .ret (endRun (fn st1 p (some info) (some le)).1 st).status
            (fn st1 p (some info) (some le)).2
            [⟨p, some info, serr, .ret true⟩,
              ⟨p, some info, some le, (fn st1 p (some info) (some le)).1⟩]
            [.stat p, .readDir p] := by
  unfold walkBody
  simp only [hstat, hfn, entryIsDir, hdir, hlist, if_true]
  rcases hfn2 : fn st1 p (some info) (some le) with ⟨res, st2⟩
  rcases res with b | v
  · cases b <;> simp [CbResult.continues, endRun]
  · simp [CbResult.continues, endRun]

/-- C4: when the stat of the popped path succeeds with directory metadata,
its listing fails and the callback returns true on the stat invocation, the
callback is invoked twice in a row for that path, first with the metadata and
no error, then with the same metadata and the error of the listing; what
follows is the run on the stack beneath (if the second call returned true) or
nothing. -/
theorem walk_list_failure_twice (w : FS ε) (ss : SortSlice) (fn : WalkFunc σ ε) (fuel : Nat)
    (s : Stack String) (p : String) (st st1 : σ) (info : FileInfo) (es : List DirEntry)
    (le : ε) (hstat : w.stat p = (some info, none)) (hdir : info.isDir = true)
    (hlist : w.readDir p = (es, some le))
    (hfn : fn st p (some info) none = (.ret true, st1)) :
    walkLoop w ss fn (fuel + 1) (s.Push p) st
      = (if (fn st1 p (some info) (some le)).1.continues then
            walkLoop w ss fn fuel s (fn st1 p (some info) (some le)).2
          else endRun (fn st1 p (some info) (some le)).1 (fn st1 p (some info) (some le)).2).after
          [⟨p, some info, none, .ret true⟩,
            ⟨p, some info, some le, (fn st1 p (some info) (some le)).1⟩]
          [.stat p, .readDir p] := by
  rw [walkLoop_push, walkBody_list_fail w ss fn p s st st1 info none es le hstat hdir hlist hfn]
  rcases hfn2 : fn st1 p (some info) (some le) with ⟨res, st2⟩
  rcases res with b | v
  · cases b <;> simp [CbResult.continues, endRun, Run.after]
  · simp [CbResult.continues, endRun, Run.after]

/-- The witness of `walk_list_failure_twice`: the second test of
walker_test.go, where the root is a directory whose listing fails. -/
theorem walk_list_failure_twice_witness :
    listFailStore.stat "a" = (some ⟨"a", true, 0⟩, none) ∧
    listFailStore.readDir "a" = ([], some MockErr.pathError) ∧
    collect true false () "a" (some ⟨"a", true, 0⟩) none = (.ret true, ()) ∧
    walkLoop listFailStore insertionSortFunc (collect true false) (0 + 1)
        ((Stack.New : Stack String).Push "a") ()
      = (if (collect true false () "a" (some ⟨"a", true, 0⟩)
              (some MockErr.pathError)).1.continues then
            walkLoop listFailStore insertionSortFunc (collect true false) 0 Stack.New
              (collect true false () "a" (some ⟨"a", true, 0⟩) (some MockErr.pathError)).2
          else endRun
              (collect true false () "a" (some ⟨"a", true, 0⟩) (some MockErr.pathError)).1
              (collect true false () "a" (some ⟨"a", true, 0⟩) (some MockErr.pathError)).2).after
          [⟨"a", some ⟨"a", true, 0⟩, none, .ret true⟩,
            ⟨"a", some ⟨"a", true, 0⟩, some MockErr.pathError,
              (collect true false () "a" (some ⟨"a", true, 0⟩) (some MockErr.pathError)).1⟩]
          [.stat "a", .readDir "a"] :=
  ⟨by decide, by decide, by decide,
    walk_list_failure_twice listFailStore insertionSortFunc (collect true false) 0 Stack.New
      "a" () () ⟨"a", true, 0⟩ [] MockErr.pathError (by decide) rfl (by decide) (by decide)⟩

/-! ## The body of the loop, case by case -/

theorem walkBody_eq (w : FS ε) (ss : SortSlice) (fn : WalkFunc σ ε) (p : String)
    (s : Stack String) (st : σ) :
    walkBody w ss fn p s st
      = if (fn st p (w.stat p).1 (w.stat p).2).1.continues then
          if entryIsDir (w.stat p).1 then
            match (w.readDir p).2 with
            | some e =>
              if (fn (fn st p (w.stat p).1 (w.stat p).2).2 p (w.stat p).1 (some e)).1.continues
              then
                .next s (fn (fn st p (w.stat p).1 (w.stat p).2).2 p (w.stat p).1 (some e)).2
                  [⟨p, (w.stat p).1, (w.stat p).2, .ret true⟩,
                    ⟨p, (w.stat p).1, some e, .ret true⟩]
                  [.stat p, .readDir p]
              else
                .ret (endRun
                    (fn (fn st p (w.stat p).1 (w.stat p).2).2 p (w.stat p).1 (some e)).1 st).status
                  (fn (fn st p (w.stat p).1 (w.stat p).2).2 p (w.stat p).1 (some e)).2
                  [⟨p, (w.stat p).1, (w.stat p).2, .ret true⟩,
                    ⟨p, (w.stat p).1, some e,
                      (fn (fn st p (w.stat p).1 (w.stat p).2).2 p (w.stat p).1 (some e)).1⟩]
                  [.stat p, .readDir p]
            | none =>
              .next ⟨s.entries ++ (childPaths ss p (w.readDir p).1).reverse⟩
                (fn st p (w.stat p).1 (w.stat p).2).2
                [⟨p, (w.stat p).1, (w.stat p).2, .ret true⟩] [.stat p, .readDir p]
          else
            .next s (fn st p (w.stat p).1 (w.stat p).2).2
              [⟨p, (w.stat p).1, (w.stat p).2, .ret true⟩] [.stat p]
        else
          .ret (endRun (fn st p (w.stat p).1 (w.stat p).2).1 st).status
            (fn st p (w.stat p).1 (w.stat p).2).2
            [⟨p, (w.stat p).1, (w.stat p).2, (fn st p (w.stat p).1 (w.stat p).2).1⟩]
            [.stat p] := by
  rcases hstat : w.stat p with ⟨entry, err⟩
  rcases hl : w.readDir p with ⟨es, err1⟩
  rcases hfn : fn st p entry err with ⟨res, st1⟩
  simp only [walkBody, hstat, hl, hfn]
  rcases res with b | v
  · cases b
    · simp [CbResult.continues, endRun]
    · simp only [CbResult.continues, if_true]
      by_cases hd : entryIsDir entry = true
      · simp only [hd, if_true]
        cases err1 with
        | none => simp only [childPaths, foldl_push, List.map_reverse]
        | some e =>
          simp only []
          rcases hfn2 : fn st1 p entry (some e) with ⟨res2, st2⟩
          rcases res2 with b2 | v2
          · cases b2 <;> simp [CbResult.continues, endRun]
          · simp [CbResult.continues, endRun]
      · simp [hd]
  · simp [CbResult.continues, endRun]

theorem CbResult.continues_iff (res : CbResult ε) :
    res.continues = true ↔ res = .ret true := by
  rcases res with b | v
  · cases b <;> simp [CbResult.continues]
  · simp [CbResult.continues]

/-! ## The shape of a trace -/

theorem walkBody_ret_wellFormed (w : FS ε) (ss : SortSlice) (fn : WalkFunc σ ε) (p : String)
    (s : Stack String) (st st1 : σ) (status : Status ε) (invs : List (Invocation ε))
    (ops : List StoreOp) (h : walkBody w ss fn p s st = .ret status st1 invs ops) :
    (⟨invs, ops, st1, status⟩ : Run σ ε).WellFormed := by
  rw [walkBody_eq] at h
  right
  split_ifs at h with h1 h2
  · split at h
    · split_ifs at h with h3
      cases h
      refine ⟨[_], _, rfl, by simp, ?_, ?_⟩
      · simpa using h3
      · simp [endRun]
        split <;> rfl
    · cases h
  · cases h
    refine ⟨[], _, rfl, by simp, ?_, ?_⟩
    · simpa using h1
    · simp [endRun]
      split <;> rfl

theorem walkBody_next_results (w : FS ε) (ss : SortSlice) (fn : WalkFunc σ ε) (p : String)
    (s s1 : Stack String) (st st1 : σ) (invs : List (Invocation ε))
    (ops : List StoreOp) (h : walkBody w ss fn p s st = .next s1 st1 invs ops) :
    ∀ x ∈ invs, x.result = .ret true := by
  rw [walkBody_eq] at h
  split_ifs at h with h1 h2
  · split at h
    · split_ifs at h with h3
      cases h
      simp
    · cases h
      simp
  · cases h
    simp

theorem Run.wellFormed_after {r : Run σ ε} (h : r.WellFormed) (invs : List (Invocation ε))
    (ops : List StoreOp) (hinv : ∀ x ∈ invs, x.result = .ret true) :
    (r.after invs ops).WellFormed := by
  rcases h with ⟨hs, hall⟩ | ⟨pre, last, htr, hpre, hlast, hs⟩
  · left
    refine ⟨hs, ?_⟩
    intro x hx
    simp only [Run.after, List.mem_append] at hx
    rcases hx with hx | hx
    · exact hinv x hx
    · exact hall x hx
  · right
    refine ⟨invs ++ pre, last, ?_, ?_, hlast, hs⟩
    · simp [Run.after, htr]
    · intro x hx
      rcases List.mem_append.1 hx with hx | hx
      · exact hinv x hx
      · exact hpre x hx

theorem walkLoop_wellFormed (w : FS ε) (ss : SortSlice) (fn : WalkFunc σ ε) (fuel : Nat)
    (s : Stack String) (st : σ) : (walkLoop w ss fn fuel s st).WellFormed := by
  induction fuel generalizing s st with
  | zero =>
    left
    rw [walkLoop_zero]
    split <;> simp
  | succ fuel ih =>
    cases hE : s.Empty with
    | true =>
      left
      rw [walkLoop_empty w ss fn _ s st hE]
      simp
    | false =>
      obtain ⟨s0, p, rfl⟩ := Stack.eq_push_of_not_empty s hE
      rw [walkLoop_push]
      split
      · next status st1 invs ops hb => exact walkBody_ret_wellFormed w ss fn p s0 st st1 status invs ops hb
      · next s1 st1 invs ops hb =>
        exact Run.wellFormed_after (ih s1 st1) invs ops
          (walkBody_next_results w ss fn p s0 s1 st st1 invs ops hb)

theorem Run.wellFormed_not_last {r : Run σ ε} (h : r.WellFormed) (pre post : List (Invocation ε))
    (x : Invocation ε) (htr : r.trace = pre ++ x :: post) (hpost : post ≠ []) :
    x.result = .ret true := by
  rcases h with ⟨_, hall⟩ | ⟨pre1, last, htr1, hpre, _, _⟩
  · exact hall x (by simp [htr])
  · apply hpre
    have h1 : pre1 ++ [last] = (pre ++ x :: post.dropLast) ++ [post.getLast hpost] := by
      rw [← htr1, htr, List.append_assoc, List.cons_append, List.dropLast_append_getLast hpost]
    have h2 := List.append_inj_left' h1 rfl
    simp [h2]

/-- C3: in the trace of `Walk` an invocation that returned false is the last
one, whether it was the stat invocation or the list-error invocation of a
directory; and if the callback returns false on the invocation for the root,
the trace is that one invocation and the run has stopped. -/
theorem walk_stops_at_false (w : FS ε) (ss : SortSlice) (fn : WalkFunc σ ε) (fuel : Nat)
    (root : String) (st : σ) :
    (∀ pre x post, (Walk w ss fuel root fn st).trace = pre ++ x :: post →
      x.result = .ret false → post = []) ∧
    ((fn st root (w.stat root).1 (w.stat root).2).1 = .ret false → 0 < fuel →
      (Walk w ss fuel root fn st).trace
          = [⟨root, (w.stat root).1, (w.stat root).2, .ret false⟩] ∧
      (Walk w ss fuel root fn st).status = .stopped) := by
  constructor
  · intro pre x post htr hx
    by_contra hpost
    have h := Run.wellFormed_not_last (walkLoop_wellFormed w ss fn fuel
      ((Stack.New : Stack String).Push root) st) pre post x htr hpost
    rw [hx] at h
    cases h
  · intro hfn hfuel
    obtain ⟨k, rfl⟩ : ∃ k, fuel = k + 1 := ⟨fuel - 1, by omega⟩
    unfold Walk
    rw [walkLoop_push, walkBody_eq]
    simp [hfn, CbResult.continues, endRun]

/-- The witness of `walk_stops_at_false`: the first test of walker_test.go,
where the callback returns false on the failed stat of the root `a`. -/
theorem walk_stops_at_false_witness :
    (Walk statFailStore insertionSortFunc 5 "a" (collect false true) ()).trace
        = [⟨"a", (statFailStore.stat "a").1, (statFailStore.stat "a").2, .ret false⟩] ∧
    (Walk statFailStore insertionSortFunc 5 "a" (collect false true) ()).status = .stopped :=
  (walk_stops_at_false statFailStore insertionSortFunc (collect false true) 5 "a" ()).2
    (by decide) (by decide)

/-! ## MustWalk -/

theorem mustShim_none (g : MustWalkFunc σ) (st : σ)
    (l : List (String × Option FileInfo × Bool)) (p : String) (entry : Option FileInfo) :
    mustShim g (st, l) p entry (none : Option ε)
      = (.ret (g st p entry).1, ((g st p entry).2, l ++ [(p, entry, (g st p entry).1)])) := rfl

theorem mustShim_some (g : MustWalkFunc σ) (st : σ × List (String × Option FileInfo × Bool))
    (p : String) (entry : Option FileInfo) (e : ε) :
    mustShim g st p entry (some e) = (.panic e, st) := rfl

theorem Run.after_mk (invs tr : List (Invocation ε)) (ops ops1 : List StoreOp) (st : σ)
    (status : Status ε) :
    (⟨tr, ops1, st, status⟩ : Run σ ε).after invs ops = ⟨invs ++ tr, ops ++ ops1, st, status⟩ :=
  rfl

theorem walkLoop_push_errs (w : FS ε) (ss : SortSlice) (fn : WalkFunc σ ε) (fuel : Nat)
    (s : Stack String) (p : String) (st : σ)
    (h : ∀ x ∈ (walkLoop w ss fn (fuel + 1) (s.Push p) st).trace, x.err = none) :
    (w.stat p).2 = none ∧
    ((fn st p (w.stat p).1 (w.stat p).2).1.continues = true → entryIsDir (w.stat p).1 = true →
      (w.readDir p).2 = none) := by
  rw [walkLoop_push, walkBody_eq] at h
  split_ifs at h with h1 h2
  · rcases hl : (w.readDir p).2 with _ | e
    · simp only [hl] at h
      exact ⟨h ⟨p, (w.stat p).1, (w.stat p).2, .ret true⟩ (by simp [Run.after]), fun _ _ => rfl⟩
    · exfalso
      simp only [hl] at h
      split_ifs at h
      · have := h ⟨p, (w.stat p).1, some e, .ret true⟩ (by simp [Run.after])
        simp at this
      · have := h ⟨p, (w.stat p).1, some e, _⟩ (List.mem_cons_of_mem _ (List.mem_singleton_self _))
        simp at this
  · exact ⟨h ⟨p, (w.stat p).1, (w.stat p).2, .ret true⟩ (by simp [Run.after]),
      fun _ h3 => absurd h3 h2⟩
  · exact ⟨h ⟨p, (w.stat p).1, (w.stat p).2, (fn st p (w.stat p).1 (w.stat p).2).1⟩ (by simp),
      fun h3 => absurd h3 h1⟩

theorem mustWalk_loop_eq_walk (w : FS ε) (ss : SortSlice) (g : MustWalkFunc σ) (fuel : Nat)
    (s : Stack String) (st : σ) (l : List (String × Option FileInfo × Bool))
    (h : ∀ x ∈ (walkLoop w ss (liftMust g) fuel s st).trace, x.err = none) :
    walkLoop w ss (mustShim g) fuel s (st, l)
      = ⟨(walkLoop w ss (liftMust g) fuel s st).trace,
          (walkLoop w ss (liftMust g) fuel s st).ops,
          ((walkLoop w ss (liftMust g) fuel s st).state,
            l ++ (walkLoop w ss (liftMust g) fuel s st).trace.map Invocation.call),
          (walkLoop w ss (liftMust g) fuel s st).status⟩ := by
  induction fuel generalizing s st l with
  | zero =>
    simp only [walkLoop_zero]
    split <;> simp
  | succ fuel ih =>
    cases hE : s.Empty with
    | true => simp [walkLoop_empty _ _ _ _ s _ hE]
    | false =>
      obtain ⟨s0, p, rfl⟩ := Stack.eq_push_of_not_empty s hE
      obtain ⟨hs, hL⟩ := walkLoop_push_errs w ss (liftMust g) fuel s0 p st h
      rw [walkLoop_push, walkBody_eq] at h
      rw [walkLoop_push, walkLoop_push, walkBody_eq, walkBody_eq]
      rcases hstat : w.stat p with ⟨entry, err⟩
      rw [hstat] at hs hL h
      simp only at hs
      subst hs
      simp only [mustShim_none, liftMust] at hL h ⊢
      rcases hg : g st p entry with ⟨b, st1⟩
      rw [hg] at hL h
      cases b with
      | false => simp [CbResult.continues, endRun, Invocation.call]
      | true =>
        simp only [CbResult.continues, if_true, forall_const] at hL h ⊢
        by_cases hd : entryIsDir entry = true
        · have hl := hL hd
          simp only [hd, hl, if_true] at h ⊢
          have hrest : ∀ x ∈ (walkLoop w ss (liftMust g) fuel
              ⟨s0.entries ++ (childPaths ss p (w.readDir p).1).reverse⟩ st1).trace,
              x.err = none := by
            intro x hx
            exact h x (by simp [Run.after, hx])
          rw [ih _ _ _ hrest]
          simp [Run.after, Invocation.call, CbResult.continues]
        · simp only [hd, Bool.false_eq_true, if_false] at h ⊢
          have hrest : ∀ x ∈ (walkLoop w ss (liftMust g) fuel s0 st1).trace, x.err = none := by
            intro x hx
            exact h x (by simp [Run.after, hx])
          rw [ih _ _ _ hrest]
          simp [Run.after, Invocation.call, CbResult.continues]

theorem mustShape_after {w : FS ε} {l : List (String × Option FileInfo × Bool)}
    {c : String × Option FileInfo × Bool}
    {r : Run (σ × List (String × Option FileInfo × Bool)) ε} (h : MustShape w (l ++ [c]) r)
    (ops : List StoreOp) (hops : ∀ o ∈ ops, w.opErr o = none) :
    MustShape w l (r.after [callInvocation c] ops) := by
  obtain ⟨calls, hst, hcase⟩ := h
  refine ⟨c :: calls, by simp [Run.after, hst], ?_⟩
  rcases hcase with ⟨htr, hnp, hok⟩ | ⟨p, entry, e, pre, op, htr, hs, hops1, hpre, hop⟩
  · left
    refine ⟨by simp [Run.after, htr], hnp, ?_⟩
    intro o ho
    simp only [Run.after, List.mem_append] at ho
    rcases ho with ho | ho
    · exact hops o ho
    · exact hok o ho
  · right
    refine ⟨p, entry, e, ops ++ pre, op, by simp [Run.after, htr], hs,
      by simp [Run.after, hops1], ?_, hop⟩
    intro o ho
    rcases List.mem_append.1 ho with ho | ho
    · exact hops o ho
    · exact hpre o ho

theorem mustWalk_loop_shape (w : FS ε) (ss : SortSlice) (g : MustWalkFunc σ) (fuel : Nat)
    (s : Stack String) (st : σ) (l : List (String × Option FileInfo × Bool)) :
    MustShape w l (walkLoop w ss (mustShim g) fuel s (st, l)) := by
  induction fuel generalizing s st l with
  | zero =>
    refine ⟨[], ?_, Or.inl ?_⟩ <;> rw [walkLoop_zero] <;> split <;> simp
  | succ fuel ih =>
    cases hE : s.Empty with
    | true =>
      refine ⟨[], ?_, Or.inl ?_⟩ <;> rw [walkLoop_empty _ _ _ _ s _ hE] <;> simp
    | false =>
      obtain ⟨s0, p, rfl⟩ := Stack.eq_push_of_not_empty s hE
      rw [walkLoop_push, walkBody_eq]
      rcases hstat : w.stat p with ⟨entry, err⟩
      cases err with
      | some e =>
        simp only [mustShim_some, CbResult.continues, Bool.false_eq_true, if_false]
        refine ⟨[], by simp, Or.inr ⟨p, entry, e, [], .stat p, ?_⟩⟩
        simp [endRun, FS.opErr, hstat]
      | none =>
        simp only [mustShim_none]
        rcases hg : g st p entry with ⟨b, st1⟩
        have hstat_ok : w.opErr (.stat p) = none := by simp [FS.opErr, hstat]
        cases b with
        | false =>
          simp only [CbResult.continues, Bool.false_eq_true, if_false]
          refine ⟨[(p, entry, false)], by simp, Or.inl ?_⟩
          simp [endRun, callInvocation, hstat_ok]
        | true =>
          simp only [CbResult.continues, if_true]
          by_cases hd : entryIsDir entry = true
          · simp only [hd, if_true]
            rcases hl : (w.readDir p).2 with _ | le
            · simp only
              have hlist_ok : w.opErr (.readDir p) = none := by simp [FS.opErr, hl]
              have h1 := mustShape_after
                (ih ⟨s0.entries ++ (childPaths ss p (w.readDir p).1).reverse⟩ st1
                  (l ++ [(p, entry, true)])) [.stat p, .readDir p]
                (by simp [hstat_ok, hlist_ok])
              simpa [callInvocation] using h1
            · simp only [mustShim_some, CbResult.continues, Bool.false_eq_true, if_false]
              refine ⟨[(p, entry, true)], by simp,
                Or.inr ⟨p, entry, le, [.stat p], .readDir p, ?_⟩⟩
              simp [endRun, callInvocation, FS.opErr, hl, hstat]
          · simp only [hd, Bool.false_eq_true, if_false]
            have h1 := mustShape_after (ih s0 st1 (l ++ [(p, entry, true)])) [.stat p]
              (by simp [hstat_ok])
            simpa [callInvocation] using h1

/-- C8: when no invocation in the trace of `Walk(root, f)` carries an error,
where `f(path, metadata, err) = g(path, metadata)`, then `MustWalk(root, g)`
does not panic, ends as `Walk` does, in the same state of `g`, and calls `g`
with the same sequence of paths and metadata as `Walk` calls `f` with. -/
theorem mustWalk_refines_walk (w : FS ε) (ss : SortSlice) (g : MustWalkFunc σ) (fuel : Nat)
    (root : String) (st : σ)
    (h : ∀ x ∈ (Walk w ss fuel root (liftMust g) st).trace, x.err = none) :
    (∀ v, (MustWalk w ss fuel root g st).status ≠ .panicked v) ∧
    (MustWalk w ss fuel root g st).status = (Walk w ss fuel root (liftMust g) st).status ∧
    (MustWalk w ss fuel root g st).state.1 = (Walk w ss fuel root (liftMust g) st).state ∧
    (MustWalk w ss fuel root g st).state.2
      = (Walk w ss fuel root (liftMust g) st).trace.map Invocation.call ∧
    (MustWalk w ss fuel root g st).state.2.map (fun c => (c.1, c.2.1))
      = (Walk w ss fuel root (liftMust g) st).trace.map (fun x => (x.path, x.entry)) := by
  have heq := mustWalk_loop_eq_walk w ss g fuel ((Stack.New : Stack String).Push root) st [] h
  have hM : MustWalk w ss fuel root g st
      = walkLoop w ss (mustShim g) fuel ((Stack.New : Stack String).Push root) (st, []) := rfl
  have hW : Walk w ss fuel root (liftMust g) st
      = walkLoop w ss (liftMust g) fuel ((Stack.New : Stack String).Push root) st := rfl
  rw [← hM, ← hW] at heq
  refine ⟨?_, by rw [heq], by rw [heq], by rw [heq]; simp, ?_⟩
  · intro v hv
    obtain ⟨calls, _, hcase⟩ :=
      mustWalk_loop_shape w ss g fuel ((Stack.New : Stack String).Push root) st []
    rw [← hM] at hcase
    rcases hcase with ⟨_, hnp, _⟩ | ⟨p, entry, e, pre, op, htr, _, _, _, _⟩
    · exact hnp v hv
    · have h1 : (MustWalk w ss fuel root g st).trace
          = (Walk w ss fuel root (liftMust g) st).trace := by rw [heq]
      have h2 := h ⟨p, entry, some e, .panic e⟩ (by rw [← h1, htr]; simp)
      simp at h2
  · rw [heq]
    simp [Invocation.call, Function.comp_def]

/-- The witness of `mustWalk_refines_walk`: the tree `a`, `a/c`, `a/c/d`,
`a/b`, on which no call fails. -/
theorem mustWalk_refines_walk_witness :
    (∀ x ∈ (Walk treeStore insertionSortFunc 9 "a"
        (liftMust (fun st _ _ => (true, st))) ()).trace, x.err = none) ∧
    (MustWalk treeStore insertionSortFunc 9 "a" (fun st _ _ => (true, st)) ()).state.2.map
        (fun c => (c.1, c.2.1))
      = (Walk treeStore insertionSortFunc 9 "a"
          (liftMust (fun st _ _ => (true, st))) ()).trace.map (fun x => (x.path, x.entry)) :=
  ⟨by decide,
    (mustWalk_refines_walk treeStore insertionSortFunc (fun st _ _ => (true, st)) 9 "a" ()
      (by decide)).2.2.2.2⟩

/-! ## The prefix of the paths -/

/-- C10, the code at the root `.`: on a storage whose root directory `.` holds
the file `a`, `Walk(".", cb)` passes the paths `.` and `a` to the callback,
and `.` is not a prefix of `a`. -/
theorem walk_dot_root_paths :
    (Walk dotStore insertionSortFunc 2 "." always ()).trace.map (fun x => x.path)
        = [".", "a"] ∧
    (Walk dotStore insertionSortFunc 2 "." always ()).status = .done ∧
    filepathJoin "." "a" = "a" ∧
    ¬ (".".data <+: "a".data) := by
  refine ⟨by decide, by decide, by decide, by decide⟩

/-! ## The sort -/

theorem insertBack_perm (less : DirEntry → DirEntry → Bool) (x : DirEntry)
    (rev : List DirEntry) : (insertBack less x rev).Perm (x :: rev) := by
  induction rev with
  | nil => simp [insertBack]
  | cons y rev ih =>
    unfold insertBack
    split
    · exact (List.Perm.cons y ih).trans (List.Perm.swap x y rev)
    · exact List.Perm.refl _

theorem foldl_insertBack_perm (less : DirEntry → DirEntry → Bool) (l acc : List DirEntry) :
    (l.foldl (fun rev x => insertBack less x rev) acc).Perm (l ++ acc) := by
  induction l generalizing acc with
  | nil => simp
  | cons x l ih =>
    rw [List.foldl_cons]
    refine (ih _).trans ?_
    refine (List.Perm.append_left l (insertBack_perm less x acc)).trans ?_
    simp

theorem insertionSortFunc_perm (less : DirEntry → DirEntry → Bool) (l : List DirEntry) :
    (insertionSortFunc less l).Perm l := by
  unfold insertionSortFunc
  refine (List.reverse_perm _).trans ?_
  simpa using foldl_insertBack_perm less l []

theorem dirFirst_eq_false (a b : DirEntry) :
    dirFirst a b = false ↔ (a.isDir = true → b.isDir = true) := by
  unfold dirFirst
  cases a.isDir <;> cases b.isDir <;> simp

theorem insertBack_sorted (x : DirEntry) (rev : List DirEntry)
    (h : rev.Pairwise (fun a b => dirFirst a b = false)) :
    (insertBack dirFirst x rev).Pairwise (fun a b => dirFirst a b = false) := by
  induction rev with
  | nil => simp [insertBack]
  | cons y rev ih =>
    rw [List.pairwise_cons] at h
    unfold insertBack
    split
    · next hxy =>
      rw [List.pairwise_cons]
      refine ⟨?_, ih h.2⟩
      intro z hz
      rcases (List.Perm.mem_iff (insertBack_perm dirFirst x rev)).1 hz with hz | hz
      · have : y.isDir = false := by
          unfold dirFirst at hxy
          cases hy : y.isDir <;> simp [hy] at hxy ⊢
        simp [dirFirst, this]
      · rename_i hz1
        exact h.1 z hz1
    · next hxy =>
      have hxy1 : dirFirst x y = false := by simpa using hxy
      rw [List.pairwise_cons]
      refine ⟨?_, List.pairwise_cons.2 h⟩
      intro z hz
      rcases List.mem_cons.1 hz with rfl | hz
      · exact hxy1
      · have hyz := h.1 z hz
        rw [dirFirst_eq_false] at hxy1 hyz ⊢
        exact fun hx => hyz (hxy1 hx)

theorem foldl_insertBack_sorted (l acc : List DirEntry)
    (h : acc.Pairwise (fun a b => dirFirst a b = false)) :
    (l.foldl (fun rev x => insertBack dirFirst x rev) acc).Pairwise
      (fun a b => dirFirst a b = false) := by
  induction l generalizing acc with
  | nil => exact h
  | cons x l ih => exact ih _ (insertBack_sorted x acc h)

theorem insertionSortFunc_sorted (l : List DirEntry) :
    (insertionSortFunc dirFirst l).Pairwise (fun a b => dirFirst b a = false) := by
  unfold insertionSortFunc
  rw [List.pairwise_reverse]
  exact foldl_insertBack_sorted l [] List.Pairwise.nil

/-! ## Iterations that go on: directories listed and other entries -/

theorem Run.after_after (r : Run σ ε) (i1 i2 : List (Invocation ε)) (o1 o2 : List StoreOp) :
    (r.after i2 o2).after i1 o1 = r.after (i1 ++ i2) (o1 ++ o2) := by
  simp [Run.after]

theorem Run.after_nil (r : Run σ ε) : r.after [] [] = r := by
  simp [Run.after]

theorem walkLoop_push_dir (w : FS ε) (ss : SortSlice) (fn : WalkFunc σ ε) (fuel : Nat)
    (s : Stack String) (p : String) (st : σ) (info : FileInfo) (serr : Option ε)
    (es : List DirEntry) (hstat : w.stat p = (some info, serr)) (hdir : info.isDir = true)
    (hlist : w.readDir p = (es, none))
    (hfn : (fn st p (some info) serr).1 = .ret true) :
    walkLoop w ss fn (fuel + 1) (s.Push p) st
      = (walkLoop w ss fn fuel ⟨s.entries ++ (childPaths ss p es).reverse⟩
          (fn st p (some info) serr).2).after
          [⟨p, some info, serr, .ret true⟩] [.stat p, .readDir p] := by
  rw [walkLoop_push, walkBody_eq]
  simp [hstat, hlist, hfn, CbResult.continues, entryIsDir, hdir]

theorem walkLoop_push_leaf (w : FS ε) (ss : SortSlice) (fn : WalkFunc σ ε) (fuel : Nat)
    (s : Stack String) (p : String) (st : σ) (entry : Option FileInfo) (serr : Option ε)
    (hstat : w.stat p = (entry, serr)) (hdir : entryIsDir entry = false)
    (hfn : (fn st p entry serr).1 = .ret true) :
    walkLoop w ss fn (fuel + 1) (s.Push p) st
      = (walkLoop w ss fn fuel s (fn st p entry serr).2).after
          [⟨p, entry, serr, .ret true⟩] [.stat p] := by
  rw [walkLoop_push, walkBody_eq]
  simp [hstat, hfn, CbResult.continues, hdir]

/-! ## The walk of a tree without failures -/

theorem errorFreeTree_succ (w : FS ε) (d : Nat) (p : String)
    (h : errorFreeTree w (d + 1) p = true) :
    ∃ info, w.stat p = (some info, none) ∧
      (info.isDir = true → ∃ es, w.readDir p = (es, none) ∧
        ∀ e ∈ es, errorFreeTree w d (filepathJoin p e.name) = true) := by
  unfold errorFreeTree at h
  split at h
  · next info hstat =>
    refine ⟨info, hstat, ?_⟩
    intro hd
    rw [if_pos hd] at h
    split at h
    · next es hl => exact ⟨es, hl, by simpa using h⟩
    · cases h
  · cases h

theorem preorder_dir (order : List DirEntry → List DirEntry) (w : FS ε) (d : Nat) (p : String)
    (info : FileInfo) (serr : Option ε) (es : List DirEntry) (err : Option ε)
    (hstat : w.stat p = (some info, serr)) (hdir : info.isDir = true)
    (hlist : w.readDir p = (es, err)) :
    preorder order w (d + 1) p
      = (p, info) :: (order es).flatMap (fun e => preorder order w d (filepathJoin p e.name)) := by
  simp [preorder, hstat, hdir, hlist]

theorem preorder_leaf (order : List DirEntry → List DirEntry) (w : FS ε) (d : Nat) (p : String)
    (info : FileInfo) (serr : Option ε)
    (hstat : w.stat p = (some info, serr)) (hdir : info.isDir = false) :
    preorder order w (d + 1) p = [(p, info)] := by
  simp [preorder, hstat, hdir]

theorem walkLoop_forest (w : FS ε) (ss : SortSlice) (fn : WalkFunc σ ε)
    (hfn : ∀ st p entry err, (fn st p entry err).1 = .ret true)
    (hsub : ∀ l, ∀ e ∈ ss dirFirst l, e ∈ l) (d : Nat) :
    ∀ ps : List String, (∀ p ∈ ps, errorFreeTree w d p = true) →
      ∀ (base : List String) (st : σ), ∃ st1 ops, ∀ k,
        walkLoop w ss fn (k + (ps.flatMap (preorder (ss dirFirst) w d)).length)
            ⟨base ++ ps.reverse⟩ st
          = (walkLoop w ss fn k ⟨base⟩ st1).after
              ((ps.flatMap (preorder (ss dirFirst) w d)).map okInvocation) ops := by
  induction d with
  | zero =>
    intro ps hps base st
    cases ps with
    | nil => exact ⟨st, [], fun k => by simp [Run.after_nil]⟩
    | cons p ps =>
      have := hps p (List.mem_cons_self _ _)
      simp [errorFreeTree] at this
  | succ d ihd =>
    intro ps
    induction ps with
    | nil =>
      intro _ base st
      exact ⟨st, [], fun k => by simp [Run.after_nil]⟩
    | cons p ps ihps =>
      intro hps base st
      obtain ⟨info, hstat, hdirs⟩ := errorFreeTree_succ w d p (hps p (List.mem_cons_self _ _))
      have hps1 : ∀ q ∈ ps, errorFreeTree w (d + 1) q = true :=
        fun q hq => hps q (List.mem_cons_of_mem _ hq)
      have hstack : (⟨base ++ (p :: ps).reverse⟩ : Stack String)
          = (⟨base ++ ps.reverse⟩ : Stack String).Push p := by
        simp [Stack.Push]
      cases hd : info.isDir with
      | true =>
        obtain ⟨es, hl, hes⟩ := hdirs hd
        have hchildren : ∀ q ∈ childPaths ss p es, errorFreeTree w d q = true := by
          intro q hq
          simp only [childPaths, List.mem_map] at hq
          obtain ⟨e, he, rfl⟩ := hq
          exact hes e (hsub es e he)
        obtain ⟨st2, ops2, h2⟩ :=
          ihd (childPaths ss p es) hchildren (base ++ ps.reverse) (fn st p (some info) none).2
        obtain ⟨st3, ops3, h3⟩ := ihps hps1 base st2
        refine ⟨st3, [.stat p, .readDir p] ++ (ops2 ++ ops3), fun k => ?_⟩
        have hpre := preorder_dir (ss dirFirst) w d p info none es none hstat hd hl
        have hflat : (childPaths ss p es).flatMap (preorder (ss dirFirst) w d)
            = (ss dirFirst es).flatMap
                (fun e => preorder (ss dirFirst) w d (filepathJoin p e.name)) := by
          simp [childPaths, List.flatMap_map]
        rw [← hflat] at hpre
        have hlen : k + ((p :: ps).flatMap (preorder (ss dirFirst) w (d + 1))).length
            = (k + (ps.flatMap (preorder (ss dirFirst) w (d + 1))).length
                + ((childPaths ss p es).flatMap (preorder (ss dirFirst) w d)).length) + 1 := by
          simp [List.flatMap_cons, hpre]
          omega
        rw [hlen, hstack, walkLoop_push_dir w ss fn _ _ p st info none es hstat hd hl (hfn _ _ _ _),
          h2, h3, Run.after_after, Run.after_after]
        simp [List.flatMap_cons, hpre, okInvocation]
      | false =>
        obtain ⟨st3, ops3, h3⟩ := ihps hps1 base (fn st p (some info) none).2
        refine ⟨st3, [.stat p] ++ ops3, fun k => ?_⟩
        have hpre := preorder_leaf (ss dirFirst) w d p info none hstat hd
        have hlen : k + ((p :: ps).flatMap (preorder (ss dirFirst) w (d + 1))).length
            = (k + (ps.flatMap (preorder (ss dirFirst) w (d + 1))).length) + 1 := by
          simp [List.flatMap_cons, hpre]
          omega
        rw [hlen, hstack, walkLoop_push_leaf w ss fn _ _ p st (some info) none hstat
          (by simp [entryIsDir, hd]) (hfn _ _ _ _), h3, Run.after_after]
        simp [List.flatMap_cons, hpre, okInvocation]

theorem preorder_perm (order : List DirEntry → List DirEntry)
    (hperm : ∀ l, (order l).Perm l) (w : FS ε) (d : Nat) (p : String) :
    (preorder order w d p).Perm (preorder id w d p) := by
  induction d generalizing p with
  | zero => simp [preorder]
  | succ d ih =>
    unfold preorder
    split
    · exact List.Perm.refl _
    · next info _ =>
      refine List.Perm.cons _ ?_
      split
      · refine (List.Perm.flatMap_right _ (hperm _)).trans ?_
        exact List.Perm.flatMap_left _ (fun e _ => ih _)
      · exact List.Perm.refl _

/-- C1: on a store that, below `root`, is a finite tree without failures, and
with a callback that always returns true, `Walk` ends with the stack
exhausted, and its trace is the depth-first pre-order of the tree, each
directory before everything below it and the whole of a child's subtree
before the next child, every invocation with the metadata of the entry and no
error.  The trace is a rearrangement of the entries at and below `root` as
the listings give them, so each entry is visited once, and if their paths are
distinct no path is passed twice. -/
theorem walk_preorder (w : FS ε) (ss : SortSlice) (fn : WalkFunc σ ε)
    (hfn : ∀ st p entry err, (fn st p entry err).1 = .ret true)
    (hperm : ∀ l, (ss dirFirst l).Perm l) (d : Nat) (root : String)
    (htree : errorFreeTree w d root = true) (fuel : Nat)
    (hfuel : (preorder (ss dirFirst) w d root).length ≤ fuel) (st : σ) :
    (Walk w ss fuel root fn st).status = .done ∧
    (Walk w ss fuel root fn st).trace = (preorder (ss dirFirst) w d root).map okInvocation ∧
    ((Walk w ss fuel root fn st).trace.map (fun x => (x.path, x.entry))).Perm
      ((preorder id w d root).map (fun e => (e.1, some e.2))) ∧
    (((preorder id w d root).map Prod.fst).Nodup →
      ((Walk w ss fuel root fn st).trace.map (fun x => x.path)).Nodup) := by
  obtain ⟨st1, ops, h⟩ := walkLoop_forest w ss fn hfn
    (fun l e he => (List.Perm.mem_iff (hperm l)).1 he) d [root]
    (by simpa using htree) [] st
  obtain ⟨k, rfl⟩ : ∃ k, fuel = k + (preorder (ss dirFirst) w d root).length :=
    ⟨fuel - (preorder (ss dirFirst) w d root).length, by omega⟩
  have h1 := h k
  simp only [List.flatMap_cons, List.flatMap_nil, List.append_nil, List.nil_append,
    List.reverse_cons, List.reverse_nil] at h1
  have hW : Walk w ss (k + (preorder (ss dirFirst) w d root).length) root fn st
      = (walkLoop w ss fn k ⟨[]⟩ st1).after
          ((preorder (ss dirFirst) w d root).map okInvocation) ops := h1
  have hdone : walkLoop w ss fn k ⟨[]⟩ st1 = ⟨[], [], st1, .done⟩ :=
    walkLoop_empty w ss fn k ⟨[]⟩ st1 rfl
  rw [hW, hdone]
  have hp := preorder_perm (ss dirFirst) hperm w d root
  refine ⟨rfl, by simp [Run.after], ?_, ?_⟩
  · simp only [Run.after, List.append_nil, List.map_map]
    exact hp.map _
  · intro hnd
    simp only [Run.after, List.append_nil, List.map_map]
    exact ((hp.map Prod.fst).nodup_iff).2 hnd

/-- The witness of `walk_preorder`: the tree `a`, `a/b`, `a/c`, `a/c/d`, walked
with insertion sort as the sort. -/
theorem walk_preorder_witness :
    errorFreeTree treeStore 3 "a" = true ∧
    (Walk treeStore insertionSortFunc 4 "a" always ()).trace
      = (preorder (insertionSortFunc dirFirst) treeStore 3 "a").map okInvocation :=
  ⟨by decide,
    (walk_preorder treeStore insertionSortFunc always (fun _ _ _ _ => rfl)
      (insertionSortFunc_perm dirFirst) 3 "a" (by decide) 4 (by decide) ()).2.1⟩

/-! ## What is beneath on the stack waits -/

theorem walkBody_under (w : FS ε) (ss : SortSlice) (fn : WalkFunc σ ε) (p : String)
    (base t : List String) (st : σ) :
    walkBody w ss fn p ⟨base ++ t⟩ st = (walkBody w ss fn p ⟨t⟩ st).under base := by
  rw [walkBody_eq, walkBody_eq]
  split_ifs
  · split
    · split_ifs <;> simp [Step.under]
    · simp [Step.under]
  · simp [Step.under]
  · simp [Step.under]

theorem walkBody_ret_not_done (w : FS ε) (ss : SortSlice) (fn : WalkFunc σ ε) (p : String)
    (s : Stack String) (st st1 : σ) (status : Status ε) (invs : List (Invocation ε))
    (ops : List StoreOp) (h : walkBody w ss fn p s st = .ret status st1 invs ops) :
    status ≠ .done := by
  have hwf := walkBody_ret_wellFormed w ss fn p s st st1 status invs ops h
  rcases hwf with ⟨hs, hall⟩ | ⟨pre, last, _, _, _, hs⟩
  · exfalso
    rw [walkBody_eq] at h
    split_ifs at h with h1 h2
    · split at h
      · split_ifs at h with h3
        cases h
        have := hall _ (List.mem_cons_of_mem _ (List.mem_singleton_self _))
        simp only at this
        rw [this] at h3
        simp [CbResult.continues] at h3
      · cases h
    · cases h
      have := hall _ (List.mem_singleton_self _)
      simp only at this
      rw [this] at h1
      simp [CbResult.continues] at h1
  · simp only at hs
    rw [hs]
    unfold endRun
    split <;> simp

theorem walkLoop_frame (w : FS ε) (ss : SortSlice) (fn : WalkFunc σ ε) (base : List String)
    (fuel : Nat) (top : List String) (st : σ) :
    ((walkLoop w ss fn fuel ⟨top⟩ st).status = .done →
      ∃ k, k ≤ fuel ∧ walkLoop w ss fn fuel ⟨base ++ top⟩ st
        = (walkLoop w ss fn (fuel - k) ⟨base⟩ (walkLoop w ss fn fuel ⟨top⟩ st).state).after
            (walkLoop w ss fn fuel ⟨top⟩ st).trace (walkLoop w ss fn fuel ⟨top⟩ st).ops) ∧
    ((walkLoop w ss fn fuel ⟨top⟩ st).status ≠ .done →
      walkLoop w ss fn fuel ⟨base ++ top⟩ st = walkLoop w ss fn fuel ⟨top⟩ st) := by
  induction fuel generalizing top st with
  | zero =>
    cases top with
    | nil =>
      refine ⟨fun _ => ⟨0, le_refl _, ?_⟩, fun h => ?_⟩
      · simp [walkLoop_zero, Stack.Empty, Run.after]
      · simp [walkLoop_zero, Stack.Empty] at h
    | cons a top =>
      refine ⟨fun h => ?_, fun _ => ?_⟩
      · simp [walkLoop_zero, Stack.Empty] at h
      · simp [walkLoop_zero, Stack.Empty]
  | succ fuel ih =>
    rcases List.eq_nil_or_concat top with rfl | ⟨top1, p, rfl⟩
    · refine ⟨fun _ => ⟨0, Nat.zero_le _, ?_⟩, fun h => ?_⟩
      · rw [walkLoop_empty w ss fn _ ⟨[]⟩ st rfl]
        simp [Run.after]
      · rw [walkLoop_empty w ss fn _ ⟨[]⟩ st rfl] at h
        simp at h
    · have h1 : (⟨top1.concat p⟩ : Stack String) = (⟨top1⟩ : Stack String).Push p := by
        simp [Stack.Push]
      have h2 : (⟨base ++ top1.concat p⟩ : Stack String)
          = (⟨base ++ top1⟩ : Stack String).Push p := by
        simp [Stack.Push]
      rw [h1, h2, walkLoop_push, walkLoop_push, walkBody_under]
      cases hb : walkBody w ss fn p ⟨top1⟩ st with
      | ret status st1 invs ops =>
        have hnd := walkBody_ret_not_done w ss fn p ⟨top1⟩ st st1 status invs ops hb
        simp only [Step.under]
        exact ⟨fun h => absurd h hnd, fun _ => trivial⟩
      | next s1 st1 invs ops =>
        simp only [Step.under]
        obtain ⟨ihd, ihn⟩ := ih s1.entries st1
        constructor
        · intro h
          obtain ⟨k, hk, hkeq⟩ := ihd (by simpa [Run.after] using h)
          refine ⟨k + 1, by omega, ?_⟩
          rw [hkeq, Run.after_after]
          simp [Run.after]
        · intro h
          rw [ihn (by simpa [Run.after] using h)]

theorem sorted_split (l : List DirEntry)
    (h : l.Pairwise (fun a b => dirFirst b a = false)) :
    ∃ ds fs, l = ds ++ fs ∧ (∀ e ∈ ds, e.isDir = true) ∧ (∀ e ∈ fs, e.isDir = false) := by
  induction l with
  | nil => exact ⟨[], [], rfl, by simp, by simp⟩
  | cons a l ih =>
    rw [List.pairwise_cons] at h
    cases ha : a.isDir with
    | true =>
      obtain ⟨ds, fs, hl, hds, hfs⟩ := ih h.2
      refine ⟨a :: ds, fs, by simp [hl], ?_, hfs⟩
      intro e he
      rcases List.mem_cons.1 he with rfl | he
      · exact ha
      · exact hds e he
    | false =>
      refine ⟨[], a :: l, rfl, by simp, ?_⟩
      intro e he
      rcases List.mem_cons.1 he with rfl | he
      · exact ha
      · have := (dirFirst_eq_false e a).1 (h.1 e he)
        cases he1 : e.isDir with
        | false => rfl
        | true => rw [this he1] at ha; cases ha

/-- C2: when the popped path is a directory whose listing succeeds and the
callback always returns true, the sorted listing is `ds ++ fs` with every
entry of `ds` reported as a directory and every entry of `fs` as a
non-directory, and the run goes on like this: the invocation for the
directory, then the whole walk of the children `ds`, with everything visited
beneath them, and only when that walk has exhausted its stack the walk that
starts with the children `fs` on top of the stack beneath.  If the walk of
`ds` does not end within the fuel, the run is that walk alone. -/
theorem walk_dirs_before_files (w : FS ε) (ss : SortSlice) (fn : WalkFunc σ ε)
    (hfn : ∀ st p entry err, (fn st p entry err).1 = .ret true)
    (hperm : ∀ l, (ss dirFirst l).Perm l)
    (hsort : ∀ l, (ss dirFirst l).Pairwise (fun a b => dirFirst b a = false))
    (p : String) (info : FileInfo) (serr : Option ε) (es : List DirEntry)
    (hstat : w.stat p = (some info, serr)) (hdir : info.isDir = true)
    (hlist : w.readDir p = (es, none)) :
    ∃ ds fs, ss dirFirst es = ds ++ fs ∧ (ds ++ fs).Perm es ∧
      (∀ e ∈ ds, e.isDir = true) ∧ (∀ e ∈ fs, e.isDir = false) ∧
      ∀ (fuel : Nat) (s : Stack String) (st : σ),
        ((walkLoop w ss fn fuel ⟨(ds.map (fun e => filepathJoin p e.name)).reverse⟩
            (fn st p (some info) serr).2).status = .done →
          ∃ k, k ≤ fuel ∧ walkLoop w ss fn (fuel + 1) (s.Push p) st
            = (walkLoop w ss fn (fuel - k)
                ⟨s.entries ++ (fs.map (fun e => filepathJoin p e.name)).reverse⟩
                (walkLoop w ss fn fuel ⟨(ds.map (fun e => filepathJoin p e.name)).reverse⟩
                  (fn st p (some info) serr).2).state).after
                (⟨p, some info, serr, .ret true⟩ ::
                  (walkLoop w ss fn fuel ⟨(ds.map (fun e => filepathJoin p e.name)).reverse⟩
                    (fn st p (some info) serr).2).trace)
                ([.stat p, .readDir p] ++
                  (walkLoop w ss fn fuel ⟨(ds.map (fun e => filepathJoin p e.name)).reverse⟩
                    (fn st p (some info) serr).2).ops)) ∧
        ((walkLoop w ss fn fuel ⟨(ds.map (fun e => filepathJoin p e.name)).reverse⟩
            (fn st p (some info) serr).2).status ≠ .done →
          walkLoop w ss fn (fuel + 1) (s.Push p) st
            = (walkLoop w ss fn fuel ⟨(ds.map (fun e => filepathJoin p e.name)).reverse⟩
                (fn st p (some info) serr).2).after
                [⟨p, some info, serr, .ret true⟩] [.stat p, .readDir p]) := by
  obtain ⟨ds, fs, hsplit, hds, hfs⟩ := sorted_split (ss dirFirst es) (hsort es)
  refine ⟨ds, fs, hsplit, hsplit ▸ hperm es, hds, hfs, ?_⟩
  intro fuel s st
  have hstep := walkLoop_push_dir w ss fn fuel s p st info serr es hstat hdir hlist (hfn _ _ _ _)
  have hstack : s.entries ++ (childPaths ss p es).reverse
      = (s.entries ++ (fs.map (fun e => filepathJoin p e.name)).reverse)
          ++ (ds.map (fun e => filepathJoin p e.name)).reverse := by
    simp [childPaths, hsplit]
  rw [hstack] at hstep
  obtain ⟨hd, hn⟩ := walkLoop_frame w ss fn
    (s.entries ++ (fs.map (fun e => filepathJoin p e.name)).reverse) fuel
    (ds.map (fun e => filepathJoin p e.name)).reverse (fn st p (some info) serr).2
  constructor
  · intro h
    obtain ⟨k, hk, hkeq⟩ := hd h
    refine ⟨k, hk, ?_⟩
    rw [hstep, hkeq, Run.after_after]
    simp
  · intro h
    rw [hstep, hn h]

/-- The witness of `walk_dirs_before_files`: the directory `a` of the tree `a`,
`a/b` (file), `a/c` (directory), `a/c/d`, whose sorted listing is `c`, `b`. -/
theorem walk_dirs_before_files_witness :
    treeStore.stat "a" = (some ⟨"a", true, 0⟩, none) ∧
    treeStore.readDir "a" = ([⟨"b", false⟩, ⟨"c", true⟩], none) ∧
    ∃ ds fs, insertionSortFunc dirFirst [⟨"b", false⟩, ⟨"c", true⟩] = ds ++ fs ∧
      (ds ++ fs).Perm [⟨"b", false⟩, ⟨"c", true⟩] ∧
      (∀ e ∈ ds, e.isDir = true) ∧ (∀ e ∈ fs, e.isDir = false) :=
  ⟨by decide, by decide,
    (walk_dirs_before_files treeStore insertionSortFunc always (fun _ _ _ _ => rfl)
      (insertionSortFunc_perm dirFirst) insertionSortFunc_sorted "a" ⟨"a", true, 0⟩ none
      [⟨"b", false⟩, ⟨"c", true⟩] (by decide) rfl (by decide)).imp
      (fun _ h => h.imp (fun _ h1 => ⟨h1.1, h1.2.1, h1.2.2.1, h1.2.2.2.1⟩))⟩

/-! ## The stack: LIFO order, the empty stack, Peek and Empty -/

theorem Stack.pop_of_empty {α : Type} [Inhabited α] (s : Stack α) (h : s.Empty = true) :
    s.Pop = (default, s) := by
  obtain ⟨l⟩ := s
  have hl : l = [] := by simpa [Stack.Empty] using h
  subst hl
  rfl

theorem Stack.peek_push {α : Type} [Inhabited α] (s : Stack α) (x : α) :
    (s.Push x).Peek = x := by
  obtain ⟨l⟩ := s
  simp [Stack.Peek, Stack.Push, List.getD_append_right]

theorem Stack.pushAll_entries {α : Type} (s : Stack α) (xs : List α) :
    (s.pushAll xs).entries = s.entries ++ xs := by
  unfold Stack.pushAll
  induction xs generalizing s with
  | nil => simp
  | cons x xs ih =>
    rw [List.foldl_cons, ih]
    simp [Stack.Push]

theorem Stack.pushAll_concat {α : Type} (s : Stack α) (xs : List α) (x : α) :
    s.pushAll (xs ++ [x]) = (s.pushAll xs).Push x := by
  simp [Stack.pushAll, List.foldl_append]

theorem Stack.popN_pushAll {α : Type} [Inhabited α] (s : Stack α) (xs : List α) :
    (s.pushAll xs).popN xs.length = (xs.reverse, s) := by
  induction xs using List.reverseRecOn with
  | nil => rfl
  | append_singleton xs x ih =>
    rw [Stack.pushAll_concat]
    simp only [List.length_append, List.length_singleton, Stack.popN, Stack.pop_push, ih,
      List.reverse_append, List.reverse_singleton, List.singleton_append]

/-- C12: pushing `x1..xN` onto a stack `s` in order and then popping `N` times
returns `xN..x1` and leaves the stack `s`; on a new stack the stack is empty
afterwards. -/
theorem stack_push_pop_lifo {α : Type} [Inhabited α] (s : Stack α) (xs : List α) :
    (s.pushAll xs).popN xs.length = (xs.reverse, s) ∧
    (((Stack.New : Stack α).pushAll xs).popN xs.length).2.Empty = true := by
  refine ⟨Stack.popN_pushAll s xs, ?_⟩
  rw [Stack.popN_pushAll]
  rfl

/-- C13: on a new stack of any element type Pop and Peek return the zero
value of the type, Empty is true, and after the Pop the stack is the new
stack still, so Empty is true again. -/
theorem stack_new_zero {α : Type} [Inhabited α] :
    (Stack.New : Stack α).Pop.1 = (Stack.New : Stack α).zero ∧
    (Stack.New : Stack α).Peek = (Stack.New : Stack α).zero ∧
    (Stack.New : Stack α).zero = default ∧
    (Stack.New : Stack α).Empty = true ∧
    (Stack.New : Stack α).Pop.2 = Stack.New ∧
    (Stack.New : Stack α).Pop.2.Empty = true :=
  ⟨rfl, rfl, rfl, rfl, rfl, rfl⟩

/-- C14: a non-empty stack is some stack `s0` with an item `x` pushed last;
Peek returns `x`, the stack after the Peek is the same stack, so a second Peek
returns `x` again, and the Pop after it returns `x` and leaves `s0`. -/
theorem stack_peek_top {α : Type} [Inhabited α] (s : Stack α) (h : s.Empty = false) :
    ∃ s0 x, s = Stack.Push s0 x ∧ s.Peek = x ∧ s.apply .peek = s ∧
      (s.apply .peek).Peek = x ∧ (s.apply .peek).Pop = (x, s0) := by
  obtain ⟨s0, x, rfl⟩ := Stack.eq_push_of_not_empty s h
  exact ⟨s0, x, rfl, Stack.peek_push s0 x, rfl, Stack.peek_push s0 x, Stack.pop_push s0 x⟩

/-- The witness of `stack_peek_top`: the stack of TestStack_Peek, with the
items 1, 2, 3 pushed. -/
theorem stack_peek_top_witness :
    ∃ s0 x, (((Stack.New : Stack Int).Push 1).Push 2).Push 3 = Stack.Push s0 x ∧
      ((((Stack.New : Stack Int).Push 1).Push 2).Push 3).Peek = x ∧
      ((((Stack.New : Stack Int).Push 1).Push 2).Push 3).apply .peek
        = (((Stack.New : Stack Int).Push 1).Push 2).Push 3 ∧
      (((((Stack.New : Stack Int).Push 1).Push 2).Push 3).apply .peek).Peek = x ∧
      (((((Stack.New : Stack Int).Push 1).Push 2).Push 3).apply .peek).Pop = (x, s0) :=
  stack_peek_top ((((Stack.New : Stack Int).Push 1).Push 2).Push 3) (by decide)

theorem Stack.run_count {α : Type} [Inhabited α] (ops : List (StackOp α)) (s : Stack α) :
    (s.run ops).entries.length + StackOp.effectivePops s ops
      = s.entries.length + StackOp.pushes ops := by
  induction ops generalizing s with
  | nil => simp [Stack.run, StackOp.effectivePops, StackOp.pushes]
  | cons op ops ih =>
    have hrun : s.run (op :: ops) = (s.apply op).run ops := rfl
    rw [hrun]
    cases op with
    | push x =>
      have := ih (s.apply (.push x))
      simp only [StackOp.effectivePops, StackOp.pushes]
      simp only [Stack.apply, Stack.Push, List.length_append, List.length_singleton] at this ⊢
      omega
    | pop =>
      have := ih (s.apply .pop)
      simp only [StackOp.effectivePops, StackOp.pushes]
      cases hE : s.Empty with
      | true =>
        simp only [Stack.apply, Stack.pop_of_empty s hE] at this ⊢
        simp only [if_true]
        omega
      | false =>
        obtain ⟨s0, x, rfl⟩ := Stack.eq_push_of_not_empty s hE
        simp only [Stack.apply, Stack.pop_push] at this ⊢
        simp only [Stack.Push, List.length_append, List.length_singleton, Bool.false_eq_true,
          if_false]
        omega
    | peek =>
      have := ih (s.apply .peek)
      simp only [StackOp.effectivePops, StackOp.pushes]
      simpa [Stack.apply] using this

/-- C15: on every stack reached from New by a sequence of calls of Push, Pop
and Peek, Empty is true exactly when the stack holds no item, which is
exactly when as many calls of Pop removed an item as there were calls of
Push; Empty is true for New and false after any Push. -/
theorem stack_empty_iff_no_elements {α : Type} [Inhabited α] (ops : List (StackOp α)) :
    (((Stack.New : Stack α).run ops).Empty = true
      ↔ ((Stack.New : Stack α).run ops).entries = []) ∧
    (((Stack.New : Stack α).run ops).Empty = true
      ↔ StackOp.effectivePops (Stack.New : Stack α) ops = StackOp.pushes ops) ∧
    (Stack.New : Stack α).Empty = true ∧
    (∀ x, (((Stack.New : Stack α).run ops).Push x).Empty = false) := by
  refine ⟨Stack.empty_iff _, ?_, rfl, fun x => Stack.empty_push _ x⟩
  have h := Stack.run_count ops (Stack.New : Stack α)
  have h0 : (Stack.New : Stack α).entries.length = 0 := rfl
  rw [Stack.empty_iff, ← List.length_eq_zero]
  omega

/-! ## How many invocations one pop makes -/

theorem walkLoop_push_trace (w : FS ε) (ss : SortSlice) (fn : WalkFunc σ ε) (fuel : Nat)
    (s : Stack String) (p : String) (st : σ) :
    ∃ rest : Run σ ε,
      walkLoop w ss fn (fuel + 1) (s.Push p) st
        = rest.after (walkBody w ss fn p s st).invs (walkBody w ss fn p s st).ops := by
  rw [walkLoop_push]
  cases walkBody w ss fn p s st with
  | ret status st1 invs ops => exact ⟨⟨[], [], st1, status⟩, by simp [Run.after, Step.invs, Step.ops]⟩
  | next s1 st1 invs ops => exact ⟨_, rfl⟩

/-- C16: the iteration for a popped path `p` invokes the callback once or
twice, and the run of the loop is these invocations followed by those of the
later iterations.  It invokes it twice only when the metadata of `p` is a
directory and the listing of `p` failed.  When the metadata is not a directory
the only storage call is the stat, so no listing is attempted, there is one
invocation, and if the loop goes on the stack is the stack beneath, no child
pushed.  When the metadata is a directory and the listing succeeds there is
one invocation. -/
theorem walk_invocations_per_pop (w : FS ε) (ss : SortSlice) (fn : WalkFunc σ ε) (fuel : Nat)
    (s : Stack String) (p : String) (st : σ) :
    (∃ rest : Run σ ε,
      walkLoop w ss fn (fuel + 1) (s.Push p) st
        = rest.after (walkBody w ss fn p s st).invs (walkBody w ss fn p s st).ops) ∧
    ((walkBody w ss fn p s st).invs.length = 1 ∨ (walkBody w ss fn p s st).invs.length = 2) ∧
    ((walkBody w ss fn p s st).invs.length = 2 →
      entryIsDir (w.stat p).1 = true ∧ (w.readDir p).2 ≠ none ∧
      (walkBody w ss fn p s st).ops = [.stat p, .readDir p]) ∧
    (entryIsDir (w.stat p).1 = false →
      (walkBody w ss fn p s st).invs.length = 1 ∧
      (walkBody w ss fn p s st).ops = [.stat p] ∧
      ∀ s1 st1 invs ops, walkBody w ss fn p s st = .next s1 st1 invs ops → s1 = s) ∧
    (entryIsDir (w.stat p).1 = true → (w.readDir p).2 = none →
      (walkBody w ss fn p s st).invs.length = 1) := by
  refine ⟨walkLoop_push_trace w ss fn fuel s p st, ?_, ?_, ?_, ?_⟩
  all_goals rw [walkBody_eq]
  · split_ifs
    · split
      · split_ifs <;> simp [Step.invs]
      · simp [Step.invs]
    · simp [Step.invs]
    · simp [Step.invs]
  · split_ifs with h1 h2
    · split
      · next e he =>
        split_ifs <;> simp [Step.invs, Step.ops, h2, he]
      · simp [Step.invs]
    · simp [Step.invs]
    · simp [Step.invs]
  · intro hd
    simp only [hd, Bool.false_eq_true, if_false]
    split_ifs
    · refine ⟨by simp [Step.invs], by simp [Step.ops], ?_⟩
      intro s1 st1 invs ops h
      cases h
      rfl
    · refine ⟨by simp [Step.invs], by simp [Step.ops], ?_⟩
      intro s1 st1 invs ops h
      cases h
  · intro hd hl
    simp only [hd, hl, if_true]
    split_ifs <;> simp [Step.invs]

/-- The witness of `walk_invocations_per_pop`: the file `a/b` of the tree `a`,
`a/b`, `a/c`, `a/c/d`, popped with `a/c` beneath it. -/
theorem walk_invocations_per_pop_witness :
    entryIsDir (treeStore.stat "a/b").1 = false ∧
    (walkBody treeStore insertionSortFunc always "a/b"
        ((Stack.New : Stack String).Push "a/c") ()).invs.length = 1 ∧
    (walkBody treeStore insertionSortFunc always "a/b"
        ((Stack.New : Stack String).Push "a/c") ()).ops = [.stat "a/b"] :=
  ⟨by decide,
    ((walk_invocations_per_pop treeStore insertionSortFunc always 0
      ((Stack.New : Stack String).Push "a/c") "a/b" ()).2.2.2.1 (by decide)).1,
    ((walk_invocations_per_pop treeStore insertionSortFunc always 0
      ((Stack.New : Stack String).Push "a/c") "a/b" ()).2.2.2.1 (by decide)).2.1⟩

/-! ## Every path visited comes from the root through listings -/

theorem origin_mono {w : FS ε} {root : String} {hist : List (Invocation ε)} {q : String}
    (h : Origin w root hist q) (more : List (Invocation ε)) :
    Origin w root (hist ++ more) q := by
  rcases h with h | ⟨y, hy, rest⟩
  · exact Or.inl h
  · exact Or.inr ⟨y, List.mem_append_left _ hy, rest⟩

theorem walkBody_invs_path (w : FS ε) (ss : SortSlice) (fn : WalkFunc σ ε) (p : String)
    (s : Stack String) (st : σ) :
    ∀ x ∈ (walkBody w ss fn p s st).invs, x.path = p := by
  rw [walkBody_eq]
  split_ifs
  · split
    · split_ifs <;> simp [Step.invs]
    · simp [Step.invs]
  · simp [Step.invs]
  · simp [Step.invs]

theorem walkBody_next_stack (w : FS ε) (ss : SortSlice) (fn : WalkFunc σ ε) (p : String)
    (s s1 : Stack String) (st st1 : σ) (invs : List (Invocation ε)) (ops : List StoreOp)
    (h : walkBody w ss fn p s st = .next s1 st1 invs ops) :
    ∀ q ∈ s1.entries, q ∈ s.entries ∨
      ∃ info e, (w.stat p).1 = some info ∧ info.isDir = true ∧ (w.readDir p).2 = none ∧
        e ∈ ss dirFirst (w.readDir p).1 ∧ q = filepathJoin p e.name ∧
        (⟨p, some info, (w.stat p).2, .ret true⟩ : Invocation ε) ∈ invs := by
  rw [walkBody_eq] at h
  intro q hq
  split_ifs at h with h1 h2
  · split at h
    · split_ifs at h
      cases h
      exact Or.inl hq
    · next hl =>
      cases h
      simp only [List.mem_append, List.mem_reverse, childPaths, List.mem_map] at hq
      rcases hq with hq | ⟨e, he, rfl⟩
      · exact Or.inl hq
      · right
        rcases hinfo : (w.stat p).1 with _ | info
        · simp [hinfo, entryIsDir] at h2
        · refine ⟨info, e, rfl, ?_, hl, he, rfl, by simp⟩
          simpa [hinfo, entryIsDir] using h2
  · cases h
    exact Or.inl hq

theorem walkLoop_origin (w : FS ε) (ss : SortSlice) (fn : WalkFunc σ ε)
    (hsub : ∀ l, ∀ e ∈ ss dirFirst l, e ∈ l) (root : String) (fuel : Nat) :
    ∀ (s : Stack String) (st : σ) (hist : List (Invocation ε)),
      (∀ q ∈ s.entries, Origin w root hist q ∧ Below w root q) →
      ∀ pre x post, (walkLoop w ss fn fuel s st).trace = pre ++ x :: post →
        Origin w root (hist ++ pre) x.path ∧ Below w root x.path := by
  induction fuel with
  | zero =>
    intro s st hist _ pre x post htr
    rw [walkLoop_zero] at htr
    split at htr <;> simp at htr
  | succ fuel ih =>
    intro s st hist hs pre x post htr
    cases hE : s.Empty with
    | true =>
      rw [walkLoop_empty w ss fn _ s st hE] at htr
      simp at htr
    | false =>
      obtain ⟨s0, p, rfl⟩ := Stack.eq_push_of_not_empty s hE
      have hp : Origin w root hist p ∧ Below w root p := hs p (by simp [Stack.Push])
      have hs0 : ∀ q ∈ s0.entries, Origin w root hist q ∧ Below w root q :=
        fun q hq => hs q (by simp [Stack.Push, hq])
      have hpath := walkBody_invs_path w ss fn p s0 st
      rw [walkLoop_push] at htr
      -- the invocations of this iteration, then the trace of the later ones
      have key : ∀ (invs T : List (Invocation ε)), (∀ y ∈ invs, y.path = p) →
          invs ++ T = pre ++ x :: post →
          (∀ pre1, pre = invs ++ pre1 → T = pre1 ++ x :: post →
            Origin w root (hist ++ pre) x.path ∧ Below w root x.path) →
          Origin w root (hist ++ pre) x.path ∧ Below w root x.path := by
        intro invs T hinvs heq hrest
        rcases List.append_eq_append_iff.1 heq with ⟨a, ha, hT⟩ | ⟨c, hc, hT⟩
        · exact hrest a ha hT
        · cases c with
          | nil =>
            simp only [List.append_nil] at hc
            simp only [List.nil_append] at hT
            exact hrest [] (by simp [hc]) hT.symm
          | cons x1 c =>
            simp only [List.cons_append, List.cons.injEq] at hT
            obtain ⟨rfl, _⟩ := hT
            have hx : x.path = p := hinvs x (by simp [hc])
            rw [hx]
            exact ⟨origin_mono hp.1 pre, hp.2⟩
      cases hb : walkBody w ss fn p s0 st with
      | ret status st1 invs ops =>
        rw [hb] at htr hpath
        simp only [Step.invs] at hpath
        simp only at htr
        refine key invs [] hpath (by simpa using htr) ?_
        intro pre1 _ hT
        simp at hT
      | next s1 st1 invs ops =>
        rw [hb] at htr hpath
        simp only [Step.invs] at hpath
        simp only [Run.after] at htr
        refine key invs _ hpath htr ?_
        intro pre1 hpre hT
        have hstack := walkBody_next_stack w ss fn p s0 s1 st st1 invs ops hb
        have hs1 : ∀ q ∈ s1.entries, Origin w root (hist ++ invs) q ∧ Below w root q := by
          intro q hq
          rcases hstack q hq with hq0 | ⟨info, e, hinfo, hdir, hl, he, rfl, hmem⟩
          · exact ⟨origin_mono (hs0 q hq0).1 invs, (hs0 q hq0).2⟩
          · have he1 := hsub _ e he
            exact ⟨Or.inr ⟨_, List.mem_append_right _ hmem, info, e, rfl, hinfo, hdir, hl,
              he1, rfl⟩, Below.child p info e hp.2 hinfo hdir hl he1⟩
        have := ih s1 st1 (hist ++ invs) hs1 pre1 x post hT
        rw [hpre, ← List.append_assoc]
        exact this

/-- C18: every path `Walk` passes to the callback is the root or is the join
of the path of an earlier invocation, made with directory metadata for a
directory whose listing succeeded, with the name of an entry of that listing;
so every path visited is below the root in the store, where below means
reached from the root through successful listings. -/
theorem walk_paths_from_root (w : FS ε) (ss : SortSlice) (fn : WalkFunc σ ε)
    (hsub : ∀ l, ∀ e ∈ ss dirFirst l, e ∈ l) (fuel : Nat) (root : String) (st : σ) :
    (∀ pre x post, (Walk w ss fuel root fn st).trace = pre ++ x :: post →
      Origin w root pre x.path) ∧
    (∀ x ∈ (Walk w ss fuel root fn st).trace, Below w root x.path) := by
  have h := walkLoop_origin w ss fn hsub root fuel ((Stack.New : Stack String).Push root) st []
    (by
      intro q hq
      have : q = root := by simpa [Stack.Push, Stack.New] using hq
      subst this
      exact ⟨Or.inl rfl, Below.root⟩)
  constructor
  · intro pre x post htr
    simpa using (h pre x post htr).1
  · intro x hx
    obtain ⟨pre, post, htr⟩ := List.append_of_mem hx
    exact (h pre x post htr).2

/-- The witness of `walk_paths_from_root`: in the walk of the tree `a`, `a/b`,
`a/c`, `a/c/d` with insertion sort as the sort, the second path visited,
`a/c`, comes from the invocation for `a`. -/
theorem walk_paths_from_root_witness :
    Origin treeStore "a" [⟨"a", some ⟨"a", true, 0⟩, none, .ret true⟩]
      (⟨"a/c", some ⟨"c", true, 0⟩, none, .ret true⟩ : Invocation MockErr).path :=
  (walk_paths_from_root treeStore insertionSortFunc always
    (fun l _ he => (List.Perm.mem_iff (insertionSortFunc_perm dirFirst l)).1 he) 4 "a" ()).1
    [⟨"a", some ⟨"a", true, 0⟩, none, .ret true⟩]
    ⟨"a/c", some ⟨"c", true, 0⟩, none, .ret true⟩
    [⟨"a/c/d", some ⟨"d", false, 5⟩, none, .ret true⟩,
      ⟨"a/b", some ⟨"b", false, 3⟩, none, .ret true⟩]
    (by decide)

/-! ## The callback can only cut the walk short -/

theorem Run.after_status (r : Run σ ε) (invs : List (Invocation ε)) (ops : List StoreOp) :
    (r.after invs ops).status = r.status := rfl

theorem Run.after_trace (r : Run σ ε) (invs : List (Invocation ε)) (ops : List StoreOp) :
    (r.after invs ops).trace = invs ++ r.trace := rfl

theorem walkLoop_prefix {τ : Type} (w : FS ε) (ss : SortSlice) (g : WalkFunc τ ε)
    (hg : ∀ st p entry err, (g st p entry err).1 = .ret true) (fn : WalkFunc σ ε)
    (fuel1 : Nat) :
    ∀ (fuel : Nat) (s : Stack String) (st : σ) (st0 : τ),
      (walkLoop w ss g fuel s st0).status = .done →
      (walkLoop w ss fn fuel1 s st).trace.map Invocation.args
        <+: (walkLoop w ss g fuel s st0).trace.map Invocation.args := by
  have hg1 : ∀ st p entry err, (g st p entry err).1.continues = true := by
    intro st p entry err
    rw [hg]
    rfl
  induction fuel1 with
  | zero =>
    intro fuel s st st0 _
    rw [walkLoop_zero]
    split <;> simp
  | succ fuel1 ih =>
    intro fuel s st st0 hdone
    cases hE : s.Empty with
    | true => simp [walkLoop_empty w ss fn _ s st hE]
    | false =>
      obtain ⟨s0, p, rfl⟩ := Stack.eq_push_of_not_empty s hE
      cases fuel with
      | zero => simp [walkLoop_zero, hE] at hdone
      | succ fuel =>
        rw [walkLoop_push, walkBody_eq] at hdone ⊢
        rw [walkLoop_push, walkBody_eq]
        simp only [hg1, if_true] at hdone ⊢
        by_cases hd : entryIsDir (w.stat p).1 = true
        · simp only [hd, if_true] at hdone ⊢
          rcases hl : (w.readDir p).2 with _ | le
          · simp only [hl, Run.after_status] at hdone
            simp only [hl, Run.after_trace]
            split_ifs
            · simp only [Run.after_trace, List.map_append, List.map_cons, List.map_nil,
                List.singleton_append, Invocation.args]
              exact (List.cons_prefix_cons).2 ⟨rfl, ih _ _ _ _ hdone⟩
            · simp [Invocation.args, List.cons_prefix_cons]
          · simp only [hl, Run.after_status] at hdone
            simp only [hl, Run.after_trace]
            split_ifs
            · simp only [Run.after_trace, List.map_append, List.map_cons, List.map_nil,
                List.cons_append, List.nil_append, Invocation.args]
              exact (List.cons_prefix_cons).2
                ⟨rfl, (List.cons_prefix_cons).2 ⟨rfl, ih _ _ _ _ hdone⟩⟩
            · simp [Invocation.args, List.cons_prefix_cons]
            · simp [Invocation.args, List.cons_prefix_cons]
        · simp only [hd, Bool.false_eq_true, if_false, Run.after_status] at hdone
          simp only [hd, Bool.false_eq_true, if_false, Run.after_trace]
          split_ifs
          · simp only [Run.after_trace, List.map_append, List.map_cons, List.map_nil,
              List.singleton_append, Invocation.args]
            exact (List.cons_prefix_cons).2 ⟨rfl, ih _ _ _ _ hdone⟩
          · simp [Invocation.args, List.cons_prefix_cons]

/-- C20: when the walk with a callback that always returns true ends with the
stack exhausted, the sequence of arguments (path, metadata, error) that `Walk`
passes to any callback, for any number of iterations, is a prefix of the
sequence it passes to the callback that always returns true. -/
theorem walk_trace_prefix {τ : Type} (w : FS ε) (ss : SortSlice) (g : WalkFunc τ ε)
    (hg : ∀ st p entry err, (g st p entry err).1 = .ret true) (fn : WalkFunc σ ε)
    (fuel fuel1 : Nat) (root : String) (st : σ) (st0 : τ)
    (hdone : (Walk w ss fuel root g st0).status = .done) :
    (Walk w ss fuel1 root fn st).trace.map Invocation.args
      <+: (Walk w ss fuel root g st0).trace.map Invocation.args :=
  walkLoop_prefix w ss g hg fn fuel1 fuel _ st st0 hdone

/-- The witness of `walk_trace_prefix`: on the tree `a`, `a/b` (listing
fails), `a/b/c`, `a/d` the callback of walker_test.go that stops on a list
error is passed a prefix of what the callback that always returns true is passed. -/
theorem walk_trace_prefix_witness :
    (Walk skipStore insertionSortFunc 4 "a" (always : WalkFunc Unit MockErr) ()).status = .done ∧
    (Walk skipStore insertionSortFunc 9 "a" (collect true false) ()).trace.map Invocation.args
      <+: (Walk skipStore insertionSortFunc 4 "a"
            (always : WalkFunc Unit MockErr) ()).trace.map Invocation.args :=
  ⟨by decide,
    walk_trace_prefix skipStore insertionSortFunc always (fun _ _ _ _ => rfl)
      (collect true false) 4 9 "a" () () (by decide)⟩

/-! ## Termination on finite trees -/

theorem walkBody_ret_status (w : FS ε) (ss : SortSlice) (fn : WalkFunc σ ε) (p : String)
    (s : Stack String) (st st1 : σ) (status : Status ε) (invs : List (Invocation ε))
    (ops : List StoreOp) (h : walkBody w ss fn p s st = .ret status st1 invs ops) :
    status = .stopped ∨ ∃ v, status = .panicked v := by
  rcases walkBody_ret_wellFormed w ss fn p s st st1 status invs ops h with
    ⟨hs, hall⟩ | ⟨pre, last, _, _, _, hs⟩
  · exact absurd (by
      rcases hs with hs | hs
      · exact hs
      · exfalso
        rw [walkBody_eq] at h
        split_ifs at h
        · split at h
          · split_ifs at h
            cases h
            simp [endRun] at hs
            split at hs <;> simp at hs
          · cases h
        · cases h
          simp [endRun] at hs
          split at hs <;> simp at hs)
      (walkBody_ret_not_done w ss fn p s st st1 status invs ops h)
  · simp only at hs
    rw [hs]
    unfold endRun
    split
    · exact Or.inr ⟨_, rfl⟩
    · exact Or.inl rfl

theorem walkBody_next_cases (w : FS ε) (ss : SortSlice) (fn : WalkFunc σ ε) (p : String)
    (s s1 : Stack String) (st st1 : σ) (invs : List (Invocation ε)) (ops : List StoreOp)
    (h : walkBody w ss fn p s st = .next s1 st1 invs ops) :
    s1 = s ∨ (entryIsDir (w.stat p).1 = true ∧ (w.readDir p).2 = none ∧
      s1 = ⟨s.entries ++ (childPaths ss p (w.readDir p).1).reverse⟩) := by
  rw [walkBody_eq] at h
  split_ifs at h with h1 h2
  · split at h
    · split_ifs at h
      cases h
      exact Or.inl rfl
    · next hl =>
      cases h
      exact Or.inr ⟨h2, hl, rfl⟩
  · cases h
    exact Or.inl rfl

theorem boundedTree_children (w : FS ε) (ss : SortSlice)
    (hperm : ∀ l, (ss dirFirst l).Perm l) (d : Nat) (p : String)
    (h : boundedTree w (d + 1) p = true) (hd : entryIsDir (w.stat p).1 = true)
    (hl : (w.readDir p).2 = none) :
    (∀ q ∈ childPaths ss p (w.readDir p).1, boundedTree w d q = true) ∧
    ((childPaths ss p (w.readDir p).1).map (treeSize w d)).sum + 1 = treeSize w (d + 1) p := by
  constructor
  · intro q hq
    simp only [childPaths, List.mem_map] at hq
    obtain ⟨e, he, rfl⟩ := hq
    have he1 := (List.Perm.mem_iff (hperm _)).1 he
    simp only [boundedTree, hd, hl, Option.isNone_none, Bool.and_self, if_true,
      List.all_eq_true] at h
    exact h e he1
  · simp only [treeSize, hd, hl, Option.isNone_none, Bool.and_self, if_true, childPaths,
      List.map_map]
    rw [((hperm (w.readDir p).1).map _).sum_eq]
    simp only [Function.comp_def]
    omega

theorem treeSize_pos (w : FS ε) (d : Nat) (p : String) : 1 ≤ treeSize w (d + 1) p := by
  simp [treeSize]

theorem walkLoop_terminates (w : FS ε) (ss : SortSlice) (fn : WalkFunc σ ε)
    (hperm : ∀ l, (ss dirFirst l).Perm l) (d : Nat) :
    ∀ ps : List String, (∀ p ∈ ps, boundedTree w d p = true) →
      ∀ (base : List String) (st : σ),
        (∃ k, k ≤ (ps.map (treeSize w d)).sum ∧ ∃ st1 invs ops, ∀ j,
          walkLoop w ss fn (j + k) ⟨base ++ ps.reverse⟩ st
            = (walkLoop w ss fn j ⟨base⟩ st1).after invs ops) ∨
        (∃ k, k ≤ (ps.map (treeSize w d)).sum ∧ ∃ r : Run σ ε,
          (r.status = .stopped ∨ ∃ v, r.status = .panicked v) ∧ ∀ j,
          walkLoop w ss fn (j + k) ⟨base ++ ps.reverse⟩ st = r) := by
  induction d with
  | zero =>
    intro ps hps base st
    cases ps with
    | nil => exact Or.inl ⟨0, by simp, st, [], [], fun j => by simp [Run.after_nil]⟩
    | cons p ps =>
      have := hps p (List.mem_cons_self _ _)
      simp [boundedTree] at this
  | succ d ihd =>
    intro ps
    induction ps with
    | nil =>
      intro _ base st
      exact Or.inl ⟨0, by simp, st, [], [], fun j => by simp [Run.after_nil]⟩
    | cons p ps ihps =>
      intro hps base st
      have hp := hps p (List.mem_cons_self _ _)
      have hps1 : ∀ q ∈ ps, boundedTree w (d + 1) q = true :=
        fun q hq => hps q (List.mem_cons_of_mem _ hq)
      have hstack : (⟨base ++ (p :: ps).reverse⟩ : Stack String)
          = (⟨base ++ ps.reverse⟩ : Stack String).Push p := by
        simp [Stack.Push]
      have hpos := treeSize_pos w d p
      simp only [List.map_cons, List.sum_cons, hstack]
      cases hb : walkBody w ss fn p ⟨base ++ ps.reverse⟩ st with
      | ret status st1 invs ops =>
        right
        refine ⟨1, by omega, ⟨invs, ops, st1, status⟩,
          walkBody_ret_status w ss fn p _ st st1 status invs ops hb, fun j => ?_⟩
        rw [walkLoop_push, hb]
      | next s1 st1 invs ops =>
        have hstep : ∀ j, walkLoop w ss fn (j + 1) ((⟨base ++ ps.reverse⟩ : Stack String).Push p) st
            = (walkLoop w ss fn j s1 st1).after invs ops := by
          intro j
          rw [walkLoop_push, hb]
        rcases walkBody_next_cases w ss fn p _ s1 st st1 invs ops hb with rfl | ⟨hd, hl, rfl⟩
        · rcases ihps hps1 base st1 with ⟨k, hk, st2, invs2, ops2, h2⟩ | ⟨k, hk, r, hr, h2⟩
          · left
            refine ⟨k + 1, by omega, st2, invs ++ invs2, ops ++ ops2, fun j => ?_⟩
            rw [← Nat.add_assoc, hstep, h2, Run.after_after]
          · right
            refine ⟨k + 1, by omega, r.after invs ops, hr, fun j => ?_⟩
            rw [← Nat.add_assoc, hstep, h2]
        · obtain ⟨hchildren, hsize⟩ := boundedTree_children w ss hperm d p hp hd hl
          simp only at hstep
          rcases ihd (childPaths ss p (w.readDir p).1) hchildren (base ++ ps.reverse) st1 with
            ⟨kc, hkc, st2, invs2, ops2, h2⟩ | ⟨kc, hkc, r, hr, h2⟩
          · rcases ihps hps1 base st2 with ⟨k, hk, st3, invs3, ops3, h3⟩ | ⟨k, hk, r, hr, h3⟩
            · left
              refine ⟨k + kc + 1, by omega, st3, invs ++ (invs2 ++ invs3),
                ops ++ (ops2 ++ ops3), fun j => ?_⟩
              rw [← Nat.add_assoc, hstep, ← Nat.add_assoc, h2, h3, Run.after_after,
                Run.after_after, List.append_assoc, List.append_assoc]
            · right
              refine ⟨k + kc + 1, by omega, (r.after invs2 ops2).after invs ops, hr,
                fun j => ?_⟩
              rw [← Nat.add_assoc, hstep, ← Nat.add_assoc, h2, h3]
          · right
            refine ⟨kc + 1, by omega, r.after invs ops, hr, fun j => ?_⟩
            rw [← Nat.add_assoc, hstep, h2]

theorem Run.wellFormed_last {r : Run σ ε} (h : r.WellFormed) :
    (r.status = .stopped → ∃ pre last, r.trace = pre ++ [last] ∧ last.result = .ret false) ∧
    (∀ v, r.status = .panicked v →
      ∃ pre last, r.trace = pre ++ [last] ∧ last.result = .panic v) := by
  rcases h with ⟨hs, _⟩ | ⟨pre, last, htr, _, hlast, hs⟩
  · constructor
    · intro h1
      rcases hs with hs | hs <;> rw [hs] at h1 <;> cases h1
    · intro v h1
      rcases hs with hs | hs <;> rw [hs] at h1 <;> cases h1
  · rcases hres : last.result with b | v
    · cases b with
      | true => simp [hres, CbResult.continues] at hlast
      | false =>
        rw [hres] at hs
        refine ⟨fun _ => ⟨pre, last, htr, hres⟩, fun v h1 => ?_⟩
        rw [hs] at h1
        simp [endRun] at h1
    · rw [hres] at hs
      refine ⟨fun h1 => ?_, fun v1 h1 => ⟨pre, last, htr, ?_⟩⟩
      · rw [hs] at h1
        simp [endRun] at h1
      · rw [hs] at h1
        simp only [endRun, Status.panicked.injEq] at h1
        rw [hres, h1]

theorem walkBody_results (w : FS ε) (ss : SortSlice) (fn : WalkFunc σ ε) (p : String)
    (s : Stack String) (st : σ) :
    ∀ x ∈ (walkBody w ss fn p s st).invs,
      ∃ st1, x.result = (fn st1 x.path x.entry x.err).1 := by
  rw [walkBody_eq]
  split_ifs with h1 h2 <;> try split
  all_goals try split_ifs with h3
  all_goals
    intro x hx
    simp only [Step.invs, List.mem_cons, List.mem_singleton, List.not_mem_nil, or_false] at hx
  · rcases hx with rfl | rfl
    · exact ⟨st, ((CbResult.continues_iff _).1 h1).symm⟩
    · exact ⟨_, ((CbResult.continues_iff _).1 h3).symm⟩
  · rcases hx with rfl | rfl
    · exact ⟨st, ((CbResult.continues_iff _).1 h1).symm⟩
    · exact ⟨_, rfl⟩
  · subst hx
    exact ⟨st, ((CbResult.continues_iff _).1 h1).symm⟩
  · subst hx
    exact ⟨st, ((CbResult.continues_iff _).1 h1).symm⟩
  · subst hx
    exact ⟨st, rfl⟩

theorem walkLoop_results (w : FS ε) (ss : SortSlice) (fn : WalkFunc σ ε) (fuel : Nat)
    (s : Stack String) (st : σ) :
    ∀ x ∈ (walkLoop w ss fn fuel s st).trace,
      ∃ st1, x.result = (fn st1 x.path x.entry x.err).1 := by
  induction fuel generalizing s st with
  | zero =>
    rw [walkLoop_zero]
    split <;> simp
  | succ fuel ih =>
    cases hE : s.Empty with
    | true => simp [walkLoop_empty w ss fn _ s st hE]
    | false =>
      obtain ⟨s0, p, rfl⟩ := Stack.eq_push_of_not_empty s hE
      have hb := walkBody_results w ss fn p s0 st
      rw [walkLoop_push]
      cases hbody : walkBody w ss fn p s0 st with
      | ret status st1 invs ops =>
        rw [hbody] at hb
        exact hb
      | next s1 st1 invs ops =>
        rw [hbody] at hb
        intro x hx
        simp only [Run.after_trace, List.mem_append] at hx
        rcases hx with hx | hx
        · exact hb x hx
        · exact ih s1 st1 x hx

/-- C19: on a store that, below `root`, is a finite tree, with failures of
stat and of listings placed anywhere, `Walk` with any callback has ended after
as many iterations as the tree has entries: the run is not cut off, it ended
with the stack exhausted, or stopped, and then the last invocation returned
false, or the callback panicked; with a callback that does not panic it ended
with the stack exhausted or because the callback returned false. -/
theorem walk_terminates (w : FS ε) (ss : SortSlice) (fn : WalkFunc σ ε)
    (hperm : ∀ l, (ss dirFirst l).Perm l) (d : Nat) (root : String)
    (htree : boundedTree w d root = true) (fuel : Nat) (hfuel : treeSize w d root ≤ fuel)
    (st : σ) :
    (Walk w ss fuel root fn st).status ≠ .outOfFuel ∧
    ((Walk w ss fuel root fn st).status = .done ∨
      (Walk w ss fuel root fn st).status = .stopped ∨
      ∃ v, (Walk w ss fuel root fn st).status = .panicked v) ∧
    ((Walk w ss fuel root fn st).status = .stopped →
      ∃ pre last, (Walk w ss fuel root fn st).trace = pre ++ [last] ∧
        last.result = .ret false) ∧
    ((∀ st1 p entry err v, (fn st1 p entry err).1 ≠ .panic v) →
      (Walk w ss fuel root fn st).status = .done ∨
      (Walk w ss fuel root fn st).status = .stopped) := by
  have hlast := Run.wellFormed_last
    (walkLoop_wellFormed w ss fn fuel ((Stack.New : Stack String).Push root) st)
  have hres := walkLoop_results w ss fn fuel ((Stack.New : Stack String).Push root) st
  have hW : Walk w ss fuel root fn st
      = walkLoop w ss fn fuel ((Stack.New : Stack String).Push root) st := rfl
  rw [← hW] at hlast hres
  have hmain : (Walk w ss fuel root fn st).status = .done ∨
      (Walk w ss fuel root fn st).status = .stopped ∨
      ∃ v, (Walk w ss fuel root fn st).status = .panicked v := by
    rcases walkLoop_terminates w ss fn hperm d [root] (by simpa using htree) [] st with
      ⟨k, hk, st1, invs, ops, h⟩ | ⟨k, hk, r, hr, h⟩
    · left
      simp only [List.map_cons, List.map_nil, List.sum_cons, List.sum_nil, Nat.add_zero] at hk
      obtain ⟨j, rfl⟩ : ∃ j, fuel = j + k := ⟨fuel - k, by omega⟩
      have h1 := h j
      simp only [List.reverse_cons, List.reverse_nil, List.nil_append] at h1
      have h2 : Walk w ss (j + k) root fn st = _ := h1
      rw [h2, Run.after_status, walkLoop_empty w ss fn j ⟨[]⟩ st1 rfl]
    · right
      simp only [List.map_cons, List.map_nil, List.sum_cons, List.sum_nil, Nat.add_zero] at hk
      obtain ⟨j, rfl⟩ : ∃ j, fuel = j + k := ⟨fuel - k, by omega⟩
      have h1 := h j
      simp only [List.reverse_cons, List.reverse_nil, List.nil_append] at h1
      have h2 : Walk w ss (j + k) root fn st = r := h1
      rw [h2]
      exact hr
  refine ⟨?_, hmain, hlast.1, ?_⟩
  · intro h
    rcases hmain with h1 | h1 | ⟨v, h1⟩ <;> rw [h1] at h <;> cases h
  · intro hnp
    rcases hmain with h1 | h1 | ⟨v, h1⟩
    · exact Or.inl h1
    · exact Or.inr h1
    · exfalso
      obtain ⟨pre, last, htr, hl⟩ := hlast.2 v h1
      obtain ⟨st1, hst1⟩ := hres last (by simp [htr])
      rw [hl] at hst1
      exact hnp _ _ _ _ v hst1.symm

/-- The witness of `walk_terminates`: the tree `a`, `a/b` (listing fails),
`a/b/c`, `a/d` of walker_test.go, which has three entries that can be reached. -/
theorem walk_terminates_witness :
    boundedTree skipStore 2 "a" = true ∧ treeSize skipStore 2 "a" ≤ 3 ∧
    (Walk skipStore insertionSortFunc 3 "a" (collect true true) ()).status ≠ .outOfFuel :=
  ⟨by decide, by decide,
    (walk_terminates skipStore insertionSortFunc (collect true true)
      (insertionSortFunc_perm dirFirst) 2 "a" (by decide) 3 (by decide) ()).1⟩

/-! ## The order of children of the same kind -/

theorem set_swap_perm (rest : List DirEntry) (n : Nat) (x y : DirEntry)
    (h : rest.get? n = some y) : (y :: rest.set n x).Perm (x :: rest) := by
  induction rest generalizing n with
  | nil => simp at h
  | cons z rest ih =>
    cases n with
    | zero =>
      simp only [List.get?_cons_zero, Option.some.injEq] at h
      subst h
      simpa using List.Perm.swap x z rest
    | succ n =>
      simp only [List.get?_cons_succ] at h
      simp only [List.set_cons_succ]
      refine (List.Perm.swap z y _).trans ?_
      refine ((ih n h).cons z).trans ?_
      exact List.Perm.swap x z rest

theorem shellPass_perm (less : DirEntry → DirEntry → Bool) (fuel : Nat) (l : List DirEntry) :
    (shellPass less fuel l).Perm l := by
  induction fuel generalizing l with
  | zero => exact List.Perm.refl _
  | succ fuel ih =>
    cases l with
    | nil => exact List.Perm.refl _
    | cons x rest =>
      unfold shellPass
      split
      · next y hy =>
        split
        · exact ((ih _).cons y).trans (set_swap_perm rest 5 x y hy)
        · exact (ih _).cons x
      · exact List.Perm.refl _

theorem shellSortFunc_perm (less : DirEntry → DirEntry → Bool) (l : List DirEntry) :
    (shellSortFunc less l).Perm l :=
  (insertionSortFunc_perm less _).trans (shellPass_perm less l.length l)

theorem shellSortFunc_sorted (l : List DirEntry) :
    (shellSortFunc dirFirst l).Pairwise (fun a b => dirFirst b a = false) :=
  insertionSortFunc_sorted _

/-- C17, a listing whose order is not kept: the sort `sort.Slice` of Go 1.18
runs on short slices returns a rearrangement of its input that is sorted for
the comparison of `Walk`, as `sort.Slice` must, and on the directory `a` with
the files `a` to `f` and the directory `g` it puts the file `a` after the
files `b` to `f`; the walk visits `a/b` before `a/a`, though the listing
returned `a` before `b` and both are files. -/
theorem walk_same_kind_order_not_kept :
    (∀ l, (shellSortFunc dirFirst l).Perm l) ∧
    (∀ l, (shellSortFunc dirFirst l).Pairwise (fun a b => dirFirst b a = false)) ∧
    (sevenStore.readDir "a").1.map (fun e => e.name) = ["a", "b", "c", "d", "e", "f", "g"] ∧
    ((sevenStore.readDir "a").1.filter (fun e => !e.isDir)).map (fun e => e.name)
      = ["a", "b", "c", "d", "e", "f"] ∧
    (Walk sevenStore shellSortFunc 8 "a" always ()).status = .done ∧
    (Walk sevenStore shellSortFunc 8 "a" always ()).trace.map (fun x => x.path)
      = ["a", "a/g", "a/b", "a/c", "a/d", "a/e", "a/f", "a/a"] ∧
    (shellSortFunc dirFirst (sevenStore.readDir "a").1).filter (fun e => !e.isDir)
      ≠ (sevenStore.readDir "a").1.filter (fun e => !e.isDir) :=
  ⟨shellSortFunc_perm dirFirst, shellSortFunc_sorted, by decide, by decide, by decide,
    by decide, by decide⟩

theorem filter_dirs_append (ds fs : List DirEntry) (hds : ∀ e ∈ ds, e.isDir = true)
    (hfs : ∀ e ∈ fs, e.isDir = false) :
    (ds ++ fs).filter (fun e => e.isDir) = ds ∧ (ds ++ fs).filter (fun e => !e.isDir) = fs := by
  constructor
  · rw [List.filter_append, List.filter_eq_self.2 hds, List.filter_eq_nil_iff.2]
    · simp
    · intro e he
      simp [hfs e he]
  · have h1 : ds.filter (fun e => !e.isDir) = [] :=
      List.filter_eq_nil_iff.2 (fun e he => by simp [hds e he])
    have h2 : fs.filter (fun e => !e.isDir) = fs :=
      List.filter_eq_self.2 (fun e he => by simp [hfs e he])
    rw [List.filter_append, h1, h2]
    rfl

/-- C17 as amended: when the popped path is a directory whose listing
succeeds, the children are pushed so that they are popped in the order
`ds ++ fs`, where `ds` is a rearrangement of the entries of the listing
reported as directories and `fs` a rearrangement of those reported as
non-directories; and if the sort kept the entries of each kind in the order
of the listing, `ds` and `fs` are these entries in the order of the listing. -/
theorem walk_children_order (w : FS ε) (ss : SortSlice) (fn : WalkFunc σ ε)
    (hperm : ∀ l, (ss dirFirst l).Perm l)
    (hsort : ∀ l, (ss dirFirst l).Pairwise (fun a b => dirFirst b a = false))
    (p : String) (info : FileInfo) (serr : Option ε) (es : List DirEntry) (st : σ)
    (hstat : w.stat p = (some info, serr)) (hdir : info.isDir = true)
    (hlist : w.readDir p = (es, none))
    (hfn : (fn st p (some info) serr).1 = .ret true) :
    ∃ ds fs, ss dirFirst es = ds ++ fs ∧
      ds.Perm (es.filter (fun e => e.isDir)) ∧ fs.Perm (es.filter (fun e => !e.isDir)) ∧
      (∀ (fuel : Nat) (s : Stack String),
        walkLoop w ss fn (fuel + 1) (s.Push p) st
          = (walkLoop w ss fn fuel
              ⟨s.entries ++ ((ds ++ fs).map (fun e => filepathJoin p e.name)).reverse⟩
              (fn st p (some info) serr).2).after
              [⟨p, some info, serr, .ret true⟩] [.stat p, .readDir p]) ∧
      ((ss dirFirst es).filter (fun e => e.isDir) = es.filter (fun e => e.isDir) →
        (ss dirFirst es).filter (fun e => !e.isDir) = es.filter (fun e => !e.isDir) →
        ds = es.filter (fun e => e.isDir) ∧ fs = es.filter (fun e => !e.isDir)) := by
  obtain ⟨ds, fs, hsplit, hds, hfs⟩ := sorted_split (ss dirFirst es) (hsort es)
  obtain ⟨hfd, hff⟩ := filter_dirs_append ds fs hds hfs
  have hp := hperm es
  rw [hsplit] at hp
  refine ⟨ds, fs, hsplit, ?_, ?_, ?_, ?_⟩
  · have := hp.filter (fun e => e.isDir)
    rwa [hfd] at this
  · have := hp.filter (fun e => !e.isDir)
    rwa [hff] at this
  · intro fuel s
    rw [walkLoop_push_dir w ss fn fuel s p st info serr es hstat hdir hlist hfn]
    simp [childPaths, hsplit]
  · intro h1 h2
    rw [hsplit, hfd] at h1
    rw [hsplit, hff] at h2
    exact ⟨h1, h2⟩

/-- The witness of `walk_children_order`: the directory `a` with the files `a`
to `f` and the directory `g`, with insertion sort as the sort, which keeps the
files in the order of the listing. -/
theorem walk_children_order_witness :
    sevenStore.stat "a" = (some ⟨"a", true, 0⟩, none) ∧
    (insertionSortFunc dirFirst (sevenStore.readDir "a").1).filter (fun e => !e.isDir)
      = (sevenStore.readDir "a").1.filter (fun e => !e.isDir) ∧
    ∃ ds fs, insertionSortFunc dirFirst (sevenStore.readDir "a").1 = ds ++ fs ∧
      ds.Perm ((sevenStore.readDir "a").1.filter (fun e => e.isDir)) ∧
      fs.Perm ((sevenStore.readDir "a").1.filter (fun e => !e.isDir)) :=
  ⟨by decide, by decide,
    (walk_children_order sevenStore insertionSortFunc always (insertionSortFunc_perm dirFirst)
      insertionSortFunc_sorted "a" ⟨"a", true, 0⟩ none (sevenStore.readDir "a").1 ()
      (by decide) rfl (by decide) rfl).imp
      (fun _ h => h.imp (fun _ h1 => ⟨h1.1, h1.2.1, h1.2.2.1⟩))⟩

/-! ## `filepath.Join` on clean paths -/

theorem cleanLoop_end (path : List Char) (n : Nat) (rooted : Bool) (fuel r : Nat)
    (out : List Char) (dotdot : Nat) (h : n ≤ r) :
    cleanLoop path n rooted fuel r out dotdot = out := by
  cases fuel with
  | zero => rfl
  | succ fuel =>
    unfold cleanLoop
    rw [if_neg (by omega)]

theorem getD_append_add (pre X : List Char) (k : Nat) (d : Char) :
    (pre ++ X).getD (pre.length + k) d = X.getD k d := by
  rw [List.getD_append_right _ _ _ _ (by omega)]
  simp

theorem takeWhile_plain (seg tail : List Char) (hsep : ∀ c ∈ seg, isSep c = false)
    (htail : tail = [] ∨ ∃ t, tail = '/' :: t) :
    (seg ++ tail).takeWhile (fun c => !isSep c) = seg := by
  induction seg with
  | nil =>
    rcases htail with rfl | ⟨t, rfl⟩
    · rfl
    · simp [List.takeWhile, isSep]
  | cons c seg ih =>
    have hc := hsep c (List.mem_cons_self _ _)
    have ih1 := ih (fun c hc => hsep c (List.mem_cons_of_mem _ hc))
    rw [List.cons_append, List.takeWhile_cons]
    simp only [hc, Bool.not_false, if_true, ih1]

theorem plainName_iff (seg : List Char) :
    plainName seg = true ↔
      seg ≠ [] ∧ (∀ c ∈ seg, isSep c = false) ∧ seg ≠ ['.'] ∧ seg ≠ ['.', '.'] := by
  simp [plainName, and_assoc]

theorem cleanLoop_plain_step (pre seg tail out : List Char) (fuel : Nat)
    (hplain : plainName seg = true) (htail : tail = [] ∨ ∃ t, tail = '/' :: t) :
    cleanLoop (pre ++ (seg ++ tail)) (pre.length + (seg ++ tail).length) false (fuel + 1)
        pre.length out 0
      = cleanLoop (pre ++ (seg ++ tail)) (pre.length + (seg ++ tail).length) false fuel
          (pre.length + seg.length)
          ((if out.length != 0 then out ++ ['/'] else out) ++ seg) 0 := by
  obtain ⟨hne, hsep, hdot, hdd⟩ := (plainName_iff seg).1 hplain
  obtain ⟨c, seg1, rfl⟩ := List.exists_cons_of_ne_nil hne
  have hc : isSep c = false := hsep c (List.mem_cons_self _ _)
  have h0 : (pre ++ (c :: seg1 ++ tail)).getD pre.length ' ' = c := by
    have := getD_append_add pre (c :: seg1 ++ tail) 0 ' '
    simpa using this
  have h1 : ∀ k, (pre ++ (c :: seg1 ++ tail)).getD (pre.length + (k + 1)) ' '
      = (seg1 ++ tail).getD k ' ' := by
    intro k
    rw [getD_append_add]
    rfl
  have hlt : pre.length < pre.length + (c :: seg1 ++ tail).length := by
    simp
  have hc2 : (c == '.' && (pre.length + 1 == pre.length + (c :: seg1 ++ tail).length
      || isSep ((pre ++ (c :: seg1 ++ tail)).getD (pre.length + 1) ' '))) = false := by
    by_cases hd : c = '.'
    · subst hd
      cases seg1 with
      | nil => exact absurd rfl hdot
      | cons c2 seg2 =>
        have hc2 : isSep c2 = false := hsep c2 (by simp)
        have := h1 0
        simp only [Nat.zero_add] at this
        rw [this]
        simp [hc2]
    · simp [hd]
  have hc3 : (c == '.' && (pre ++ (c :: seg1 ++ tail)).getD (pre.length + 1) ' ' == '.'
      && (pre.length + 2 == pre.length + (c :: seg1 ++ tail).length
        || isSep ((pre ++ (c :: seg1 ++ tail)).getD (pre.length + 2) ' '))) = false := by
    by_cases hd : c = '.'
    · subst hd
      cases seg1 with
      | nil => exact absurd rfl hdot
      | cons c2 seg2 =>
        have e1 := h1 0
        simp only [Nat.zero_add] at e1
        rw [e1]
        by_cases hd2 : c2 = '.'
        · subst hd2
          cases seg2 with
          | nil => exact absurd rfl hdd
          | cons c3 seg3 =>
            have hc3 : isSep c3 = false := hsep c3 (by simp)
            have e2 := h1 1
            rw [e2]
            simp [hc3]
        · simp [hd2]
    · simp [hd]
  have hdrop : (pre ++ (c :: seg1 ++ tail)).drop pre.length = c :: seg1 ++ tail :=
    List.drop_left _ _
  have htake := takeWhile_plain (c :: seg1) tail hsep htail
  rw [cleanLoop]
  simp only [hlt, if_true, h0, hc, Bool.false_eq_true, if_false, hc2, hc3, hdrop, htake,
    Bool.not_false, Bool.true_and, Bool.false_and, Bool.false_or]

theorem cleanLoop_sep_step (pre X out : List Char) (n : Nat) (rooted : Bool) (fuel dd : Nat)
    (hn : pre.length < n) :
    cleanLoop (pre ++ '/' :: X) n rooted (fuel + 1) pre.length out dd
      = cleanLoop (pre ++ '/' :: X) n rooted fuel (pre.length + 1) out dd := by
  have h0 : (pre ++ '/' :: X).getD pre.length ' ' = '/' := by
    have := getD_append_add pre ('/' :: X) 0 ' '
    simpa using this
  have hs : isSep '/' = true := rfl
  rw [cleanLoop]
  simp only [hn, if_true, h0, hs]

theorem joinElems_cons_cons (e e2 : List Char) (rest : List (List Char)) :
    joinElems (e :: e2 :: rest) = e ++ '/' :: joinElems (e2 :: rest) := rfl

theorem joinElems_length_pos (elems : List (List Char)) (hne : elems ≠ [])
    (hplain : ∀ e ∈ elems, plainName e = true) : 0 < (joinElems elems).length := by
  obtain ⟨e, rest, rfl⟩ := List.exists_cons_of_ne_nil hne
  have he := ((plainName_iff e).1 (hplain e (List.mem_cons_self _ _))).1
  have hpos : 0 < e.length := List.length_pos.2 he
  cases rest with
  | nil => simpa [joinElems] using hpos
  | cons e2 rest =>
    rw [joinElems_cons_cons]
    simp

theorem cleanLoop_joinElems (elems : List (List Char)) :
    ∀ (out : List Char) (fuel : Nat), elems ≠ [] → (∀ e ∈ elems, plainName e = true) →
      (joinElems elems).length ≤ fuel →
      cleanLoop ((if out.length != 0 then out ++ ['/'] else out) ++ joinElems elems)
          ((if out.length != 0 then out ++ ['/'] else out).length + (joinElems elems).length)
          false fuel (if out.length != 0 then out ++ ['/'] else out).length out 0
        = (if out.length != 0 then out ++ ['/'] else out) ++ joinElems elems := by
  induction elems with
  | nil => intro _ _ h; exact absurd rfl h
  | cons e rest ih =>
    intro out fuel _ hplain hfuel
    have he := hplain e (List.mem_cons_self _ _)
    have hepos : 0 < e.length := List.length_pos.2 ((plainName_iff e).1 he).1
    generalize hpre : (if out.length != 0 then out ++ ['/'] else out) = pre
    cases rest with
    | nil =>
      simp only [joinElems] at hfuel ⊢
      obtain ⟨f, rfl⟩ : ∃ f, fuel = f + 1 := ⟨fuel - 1, by omega⟩
      have hstep := cleanLoop_plain_step pre e [] out f he (Or.inl rfl)
      simp only [List.append_nil, hpre] at hstep
      rw [hstep, cleanLoop_end _ _ _ _ _ _ _ (le_refl _)]
    | cons e2 rest =>
      rw [joinElems_cons_cons] at hfuel ⊢
      have hrest : ∀ x ∈ e2 :: rest, plainName x = true :=
        fun x hx => hplain x (List.mem_cons_of_mem _ hx)
      simp only [List.length_append, List.length_cons] at hfuel
      obtain ⟨f, rfl⟩ : ∃ f, fuel = f + 1 + 1 := ⟨fuel - 2, by omega⟩
      have hstep := cleanLoop_plain_step pre e ('/' :: joinElems (e2 :: rest)) out (f + 1) he
        (Or.inr ⟨_, rfl⟩)
      rw [hpre] at hstep
      rw [hstep]
      have hpath : pre ++ (e ++ '/' :: joinElems (e2 :: rest))
          = (pre ++ e) ++ '/' :: joinElems (e2 :: rest) := by simp
      have hr : pre.length + e.length = (pre ++ e).length := by simp
      rw [hpath, hr, cleanLoop_sep_step _ _ _ _ _ _ _
        (by simp only [List.length_append, List.length_cons]; omega)]
      have hout : (if (pre ++ e).length != 0 then (pre ++ e) ++ ['/'] else pre ++ e)
          = (pre ++ e) ++ ['/'] := by
        have : ((pre ++ e).length != 0) = true := by
          rw [List.length_append, bne_iff_ne]
          omega
        rw [if_pos this]
      have ih1 := ih (pre ++ e) f (by simp) hrest (by omega)
      rw [hout] at ih1
      have hpath2 : (pre ++ e) ++ '/' :: joinElems (e2 :: rest)
          = ((pre ++ e) ++ ['/']) ++ joinElems (e2 :: rest) := by simp
      have hn2 : pre.length + (e ++ '/' :: joinElems (e2 :: rest)).length
          = ((pre ++ e) ++ ['/']).length + (joinElems (e2 :: rest)).length := by
        simp only [List.length_append, List.length_cons, List.length_nil]
        omega
      have hr2 : (pre ++ e).length + 1 = ((pre ++ e) ++ ['/']).length := by
        simp only [List.length_append, List.length_cons, List.length_nil]
      rw [hpath2, hn2, hr2, ih1]

theorem cleanChars_joinElems (elems : List (List Char)) (hne : elems ≠ [])
    (hplain : ∀ e ∈ elems, plainName e = true) :
    cleanChars (joinElems elems) = joinElems elems := by
  have hpos := joinElems_length_pos elems hne hplain
  have hroot : isSep ((joinElems elems).getD 0 ' ') = false := by
    obtain ⟨e, rest, rfl⟩ := List.exists_cons_of_ne_nil hne
    obtain ⟨he, hsep, _, _⟩ := (plainName_iff e).1 (hplain e (List.mem_cons_self _ _))
    obtain ⟨c, e1, rfl⟩ := List.exists_cons_of_ne_nil he
    have hc := hsep c (List.mem_cons_self _ _)
    cases rest with
    | nil => simpa [joinElems] using hc
    | cons e2 rest => simpa [joinElems_cons_cons] using hc
  have h := cleanLoop_joinElems elems [] (joinElems elems).length hne hplain (le_refl _)
  simp only [List.length_nil, bne_self_eq_false, Bool.false_eq_true, if_false, List.nil_append,
    Nat.zero_add] at h
  unfold cleanChars
  have hemp : (joinElems elems).isEmpty = false := by
    cases hj : joinElems elems with
    | nil => simp [hj] at hpos
    | cons _ _ => rfl
  simp only [hemp, Bool.false_eq_true, if_false, hroot, h]
  have : ((joinElems elems).length == 0) = false := by
    rw [beq_eq_false_iff_ne]
    omega
  simp only [this, Bool.false_eq_true, if_false]

theorem joinElems_concat (elems : List (List Char)) (hne : elems ≠ []) (n : List Char) :
    joinElems (elems ++ [n]) = joinElems elems ++ '/' :: n := by
  induction elems with
  | nil => exact absurd rfl hne
  | cons e rest ih =>
    cases rest with
    | nil => rfl
    | cons e2 rest =>
      rw [List.cons_append, List.cons_append, joinElems_cons_cons, joinElems_cons_cons,
        ← List.cons_append, ih (by simp)]
      simp

/-! ## The paths of the children -/

theorem filepathJoin_plain (p n : String) (elems : List (List Char)) (hne : elems ≠ [])
    (hplain : ∀ x ∈ elems, plainName x = true) (hp : p.data = joinElems elems)
    (hn : plainName n.data = true) :
    filepathJoin p n = p ++ "/" ++ n := by
  have hpos := joinElems_length_pos elems hne hplain
  have hemp : p.data.isEmpty = false := by
    rw [hp]
    cases hj : joinElems elems with
    | nil => simp [hj] at hpos
    | cons _ _ => rfl
  have hclean := cleanChars_joinElems (elems ++ [n.data]) (by simp) (by
    intro x hx
    rcases List.mem_append.1 hx with hx | hx
    · exact hplain x hx
    · simp only [List.mem_singleton] at hx
      rw [hx]
      exact hn)
  rw [joinElems_concat elems hne, ← hp] at hclean
  unfold filepathJoin
  simp only [hemp, Bool.false_eq_true, if_false, hclean]
  apply String.ext
  simp

/-- C11, the code at the root `.`: on a storage whose root `.` holds the
directory `d` with the file `x`, the walk of `.` visits `.`, `d` and `d/x`;
the child `d` of `.` is pushed and visited under `d`, which is not `.` joined
with `d` by the separator, and the parent path `.` is not at the start of it. -/
theorem walk_child_path_cleaned :
    (Walk dotTreeStore insertionSortFunc 3 "." always ()).status = .done ∧
    (Walk dotTreeStore insertionSortFunc 3 "." always ()).trace.map (fun x => x.path)
      = [".", "d", "d/x"] ∧
    childPaths insertionSortFunc "." (dotTreeStore.readDir ".").1 = ["d"] ∧
    filepathJoin "." "d" = "d" ∧
    filepathJoin "." "d" ≠ "." ++ "/" ++ "d" ∧
    ¬ (".".data <+: (filepathJoin "." "d").data) := by
  refine ⟨by decide, by decide, by decide, by decide, by decide, by decide⟩

/-! ## MustWalk against the walk that hands the errors to the callback -/

theorem firstErr_iff (tr : List (Invocation ε)) (v : ε) :
    firstErr tr = some v ↔
      ∃ pre x post, tr = pre ++ x :: post ∧ (∀ y ∈ pre, y.err = none) ∧ x.err = some v := by
  induction tr with
  | nil => simp [firstErr]
  | cons a tr ih =>
    rcases ha : a.err with _ | e
    · simp only [firstErr, ha]
      rw [ih]
      constructor
      · rintro ⟨pre, x, post, rfl, hpre, hx⟩
        refine ⟨a :: pre, x, post, rfl, ?_, hx⟩
        intro y hy
        rcases List.mem_cons.1 hy with rfl | hy
        · exact ha
        · exact hpre y hy
      · rintro ⟨pre, x, post, heq, hpre, hx⟩
        cases pre with
        | nil =>
          simp only [List.nil_append, List.cons.injEq] at heq
          rw [← heq.1, ha] at hx
          cases hx
        | cons b pre =>
          simp only [List.cons_append, List.cons.injEq] at heq
          exact ⟨pre, x, post, heq.2, fun y hy => hpre y (List.mem_cons_of_mem _ hy), hx⟩
    · simp only [firstErr, ha, Option.some.injEq]
      constructor
      · rintro rfl
        exact ⟨[], a, tr, rfl, by simp, ha⟩
      · rintro ⟨pre, x, post, heq, hpre, hx⟩
        cases pre with
        | nil =>
          simp only [List.nil_append, List.cons.injEq] at heq
          rw [← heq.1, ha] at hx
          exact Option.some.inj hx
        | cons b pre =>
          simp only [List.cons_append, List.cons.injEq] at heq
          have := hpre b (List.mem_cons_self _ _)
          rw [← heq.1, ha] at this
          cases this

theorem walkBody_storeStep (w : FS ε) (ss : SortSlice) (fn : WalkFunc σ ε) (p : String)
    (s : Stack String) (st : σ) :
    ∀ x ∈ (walkBody w ss fn p s st).invs, StoreStep w x := by
  rw [walkBody_eq]
  split_ifs with h1 h2 <;> try split
  all_goals try split_ifs with h3
  all_goals
    intro x hx
    simp only [Step.invs, List.mem_cons, List.mem_singleton, List.not_mem_nil, or_false] at hx
  · next e he =>
    rcases hx with rfl | rfl
    · exact Or.inl rfl
    · exact Or.inr ⟨rfl, h2, he.symm, by simp⟩
  · next e he =>
    rcases hx with rfl | rfl
    · exact Or.inl rfl
    · exact Or.inr ⟨rfl, h2, he.symm, by simp⟩
  · subst hx
    exact Or.inl rfl
  · subst hx
    exact Or.inl rfl
  · subst hx
    exact Or.inl rfl

theorem walkLoop_storeStep (w : FS ε) (ss : SortSlice) (fn : WalkFunc σ ε) (fuel : Nat)
    (s : Stack String) (st : σ) :
    ∀ x ∈ (walkLoop w ss fn fuel s st).trace, StoreStep w x := by
  induction fuel generalizing s st with
  | zero =>
    rw [walkLoop_zero]
    split <;> simp
  | succ fuel ih =>
    cases hE : s.Empty with
    | true => simp [walkLoop_empty w ss fn _ s st hE]
    | false =>
      obtain ⟨s0, p, rfl⟩ := Stack.eq_push_of_not_empty s hE
      have hb := walkBody_storeStep w ss fn p s0 st
      rw [walkLoop_push]
      cases hbody : walkBody w ss fn p s0 st with
      | ret status st1 invs ops =>
        rw [hbody] at hb
        exact hb
      | next s1 st1 invs ops =>
        rw [hbody] at hb
        intro x hx
        simp only [Run.after_trace, List.mem_append] at hx
        rcases hx with hx | hx
        · exact hb x hx
        · exact ih s1 st1 x hx

theorem mustWalk_loop_cut (w : FS ε) (ss : SortSlice) (g : MustWalkFunc σ) (fuel : Nat)
    (s : Stack String) (st : σ) (l : List (String × Option FileInfo × Bool)) :
    (walkLoop w ss (mustShim g) fuel s (st, l)).state.2
        = l ++ ((walkLoop w ss (liftMust g) fuel s st).trace.takeWhile
            (fun x => x.err.isNone)).map Invocation.call ∧
    (walkLoop w ss (mustShim g) fuel s (st, l)).status
        = (match firstErr (walkLoop w ss (liftMust g) fuel s st).trace with
          | some v => .panicked v
          | none => (walkLoop w ss (liftMust g) fuel s st).status) := by
  induction fuel generalizing s st l with
  | zero =>
    simp only [walkLoop_zero]
    split <;> simp [firstErr]
  | succ fuel ih =>
    cases hE : s.Empty with
    | true => simp [walkLoop_empty _ _ _ _ s _ hE, firstErr]
    | false =>
      obtain ⟨s0, p, rfl⟩ := Stack.eq_push_of_not_empty s hE
      rw [walkLoop_push, walkLoop_push, walkBody_eq, walkBody_eq]
      rcases hstat : w.stat p with ⟨entry, err⟩
      rcases hg : g st p entry with ⟨b, st1⟩
      cases err with
      | some e =>
        simp only [mustShim_some, liftMust, hg, CbResult.continues, Bool.false_eq_true,
          if_false]
        cases b with
        | false => simp [endRun, firstErr, CbResult.continues]
        | true =>
          simp only [CbResult.continues, if_true]
          by_cases hd : entryIsDir entry = true
          · simp only [hd, if_true]
            rcases hl : (w.readDir p).2 with _ | le
            · simp [endRun, firstErr, Run.after]
            · simp only
              split_ifs <;> simp [endRun, firstErr, Run.after]
          · simp [hd, endRun, firstErr, Run.after]
      | none =>
        simp only [mustShim_none, liftMust, hg]
        cases b with
        | false => simp [CbResult.continues, endRun, firstErr, Invocation.call]
        | true =>
          simp only [CbResult.continues, if_true]
          by_cases hd : entryIsDir entry = true
          · simp only [hd, if_true]
            rcases hl : (w.readDir p).2 with _ | le
            · simp only
              obtain ⟨ih1, ih2⟩ := ih ⟨s0.entries ++ (childPaths ss p (w.readDir p).1).reverse⟩
                st1 (l ++ [(p, entry, true)])
              simp [Run.after, ih1, ih2, firstErr, Invocation.call, CbResult.continues]
            · simp only [mustShim_some, CbResult.continues, Bool.false_eq_true, if_false]
              split_ifs <;>
                simp [endRun, firstErr, Run.after, Invocation.call, CbResult.continues]
          · simp only [hd, Bool.false_eq_true, if_false]
            obtain ⟨ih1, ih2⟩ := ih s0 st1 (l ++ [(p, entry, true)])
            simp [Run.after, ih1, ih2, firstErr, Invocation.call, CbResult.continues]

theorem walkLoop_lift_not_panicked (w : FS ε) (ss : SortSlice) (g : MustWalkFunc σ)
    (fuel : Nat) (s : Stack String) (st : σ) (v : ε) :
    (walkLoop w ss (liftMust g) fuel s st).status ≠ .panicked v := by
  intro h
  obtain ⟨pre, last, htr, hl⟩ :=
    (Run.wellFormed_last (walkLoop_wellFormed w ss (liftMust g) fuel s st)).2 v h
  obtain ⟨st1, hst1⟩ := walkLoop_results w ss (liftMust g) fuel s st last (by simp [htr])
  rw [hl] at hst1
  simp [liftMust] at hst1

theorem mustWalk_status_iff (w : FS ε) (ss : SortSlice) (g : MustWalkFunc σ) (fuel : Nat)
    (root : String) (st : σ) (v : ε) :
    (MustWalk w ss fuel root g st).status = .panicked v ↔
      firstErr (Walk w ss fuel root (liftMust g) st).trace = some v := by
  have hcut := (mustWalk_loop_cut w ss g fuel ((Stack.New : Stack String).Push root) st []).2
  have hM : MustWalk w ss fuel root g st
      = walkLoop w ss (mustShim g) fuel ((Stack.New : Stack String).Push root) (st, []) := rfl
  have hW : Walk w ss fuel root (liftMust g) st
      = walkLoop w ss (liftMust g) fuel ((Stack.New : Stack String).Push root) st := rfl
  rw [← hM, ← hW] at hcut
  rw [hcut]
  rcases hf : firstErr (Walk w ss fuel root (liftMust g) st).trace with _ | e
  · simp only
    constructor
    · intro h
      exact absurd h (walkLoop_lift_not_panicked w ss g fuel _ st v)
    · intro h
      cases h
  · simp

/-- C6: `MustWalk(root, g)` panics with `v` exactly when, in the walk that
hands every result of the store to the callback and goes on as `g` says, an
invocation carries an error and `v` is the error of the first one that does;
each invocation of that walk reports what the stat or the listing of its path
returned.  When the stat of the root fails with `e` it panics with `e`; when
the root is a directory whose listing fails with `le` and `g` returned true
for it, it panics with `le`.  On the tree `a`, `a/b` (listing fails), `a/b/c`,
`a/d` it panics with the error of the listing of `a/b`, and on the tree `a`,
`a/b`, `a/c`, `a/c/d` without failures it does not panic. -/
theorem mustWalk_panics_iff (w : FS ε) (ss : SortSlice) (g : MustWalkFunc σ) (fuel : Nat)
    (root : String) (st : σ) :
    (∀ v, (MustWalk w ss fuel root g st).status = .panicked v ↔
      ∃ pre x post, (Walk w ss fuel root (liftMust g) st).trace = pre ++ x :: post ∧
        (∀ y ∈ pre, y.err = none) ∧ x.err = some v) ∧
    (∀ x ∈ (Walk w ss fuel root (liftMust g) st).trace, StoreStep w x) ∧
    (∀ e, (w.stat root).2 = some e → 0 < fuel →
      (MustWalk w ss fuel root g st).status = .panicked e) ∧
    (∀ info le, w.stat root = (some info, none) → info.isDir = true →
      (w.readDir root).2 = some le → (g st root (some info)).1 = true → 0 < fuel →
      (MustWalk w ss fuel root g st).status = .panicked le) ∧
    (MustWalk skipStore insertionSortFunc 4 "a" (fun st _ _ => (true, st)) ()).status
      = .panicked MockErr.pathError ∧
    (MustWalk treeStore insertionSortFunc 4 "a" (fun st _ _ => (true, st)) ()).status
      = .done := by
  have hM : MustWalk w ss fuel root g st
      = walkLoop w ss (mustShim g) fuel ((Stack.New : Stack String).Push root) (st, []) := rfl
  refine ⟨?_, walkLoop_storeStep w ss (liftMust g) fuel _ st, ?_, ?_, by decide, by decide⟩
  · intro v
    rw [mustWalk_status_iff, firstErr_iff]
  · intro e he hfuel
    obtain ⟨k, rfl⟩ : ∃ k, fuel = k + 1 := ⟨fuel - 1, by omega⟩
    rw [hM, walkLoop_push, walkBody_eq]
    rcases hstat : w.stat root with ⟨entry, err⟩
    rw [hstat] at he
    simp only at he
    subst he
    simp [mustShim_some, CbResult.continues, endRun]
  · intro info le hstat hdir hl hg hfuel
    obtain ⟨k, rfl⟩ : ∃ k, fuel = k + 1 := ⟨fuel - 1, by omega⟩
    rw [hM, walkLoop_push, walkBody_eq]
    simp [hstat, hl, mustShim_none, mustShim_some, hg, CbResult.continues, endRun,
      entryIsDir, hdir]

/-- The witness of `mustWalk_panics_iff`: the stat of the root `a` of the first
test of `Walk` fails, and the listing of the root `a` of the second test fails. -/
theorem mustWalk_panics_iff_witness :
    (MustWalk statFailStore insertionSortFunc 3 "a" (fun st _ _ => (true, st)) ()).status
      = .panicked MockErr.permission ∧
    (MustWalk listFailStore insertionSortFunc 3 "a" (fun st _ _ => (true, st)) ()).status
      = .panicked MockErr.pathError :=
  ⟨(mustWalk_panics_iff statFailStore insertionSortFunc (fun st _ _ => (true, st)) 3 "a"
      ()).2.2.1 MockErr.permission (by decide) (by decide),
    (mustWalk_panics_iff listFailStore insertionSortFunc (fun st _ _ => (true, st)) 3 "a"
      ()).2.2.2.1 ⟨"a", true, 0⟩ MockErr.pathError (by decide) rfl (by decide) rfl
      (by decide)⟩

/-- C7: the calls `MustWalk(root, g)` makes of `g` are exactly the invocations,
in order, that come before the first invocation carrying an error in the walk
that hands every result of the store to the callback and goes on as `g` says;
each invocation of that walk reports what the stat or the listing of its path
returned, so `g` is called only for a path whose stat succeeded, with the
metadata of that stat, and never for a failed stat or a failed listing nor
after one.  On the storage where the stat of the root fails `g` is not called;
on the tree `a`, `a/b` (listing fails), `a/b/c`, `a/d` it is called for `a` and
for `a/b` and no more. -/
theorem mustWalk_calls (w : FS ε) (ss : SortSlice) (g : MustWalkFunc σ) (fuel : Nat)
    (root : String) (st : σ) :
    (MustWalk w ss fuel root g st).state.2
      = ((Walk w ss fuel root (liftMust g) st).trace.takeWhile
          (fun x => x.err.isNone)).map Invocation.call ∧
    (∀ x ∈ (Walk w ss fuel root (liftMust g) st).trace, StoreStep w x) ∧
    (∀ c ∈ (MustWalk w ss fuel root g st).state.2, w.stat c.1 = (c.2.1, none)) ∧
    (MustWalk statFailStore insertionSortFunc 3 "a" (fun st _ _ => (true, st)) ()).state.2
      = [] ∧
    (MustWalk skipStore insertionSortFunc 4 "a" (fun st _ _ => (true, st)) ()).state.2
      = [("a", some ⟨"a", true, 0⟩, true), ("a/b", some ⟨"b", true, 0⟩, true)] := by
  have hcut := (mustWalk_loop_cut w ss g fuel ((Stack.New : Stack String).Push root) st []).1
  have hM : MustWalk w ss fuel root g st
      = walkLoop w ss (mustShim g) fuel ((Stack.New : Stack String).Push root) (st, []) := rfl
  have hW : Walk w ss fuel root (liftMust g) st
      = walkLoop w ss (liftMust g) fuel ((Stack.New : Stack String).Push root) st := rfl
  rw [← hM, ← hW, List.nil_append] at hcut
  have hsound := walkLoop_storeStep w ss (liftMust g) fuel
    ((Stack.New : Stack String).Push root) st
  rw [← hW] at hsound
  refine ⟨hcut, hsound, ?_, by decide, by decide⟩
  intro c hc
  rw [hcut, List.mem_map] at hc
  obtain ⟨x, hx, rfl⟩ := hc
  have hnone : x.err = none := by
    have := List.mem_takeWhile_imp hx
    simpa using this
  have hmem : x ∈ (Walk w ss fuel root (liftMust g) st).trace :=
    (List.takeWhile_sublist _).subset hx
  rcases hsound x hmem with h | ⟨_, _, _, h⟩
  · rw [hnone] at h
    exact h.symm
  · exact absurd hnone h

/-! ## Nothing beneath a directory whose listing fails -/

theorem walkLoop_paths_inv (w : FS ε) (ss : SortSlice) (fn : WalkFunc σ ε)
    (hsub : ∀ l, ∀ e ∈ ss dirFirst l, e ∈ l) (Q : String → Prop)
    (hQ : ∀ y info e, Q y → (w.stat y).1 = some info → info.isDir = true →
      (w.readDir y).2 = none → e ∈ (w.readDir y).1 → Q (filepathJoin y e.name))
    (fuel : Nat) :
    ∀ (s : Stack String) (st : σ), (∀ q ∈ s.entries, Q q) →
      ∀ x ∈ (walkLoop w ss fn fuel s st).trace, Q x.path := by
  induction fuel with
  | zero =>
    intro s st _
    rw [walkLoop_zero]
    split <;> simp
  | succ fuel ih =>
    intro s st hs
    cases hE : s.Empty with
    | true => simp [walkLoop_empty w ss fn _ s st hE]
    | false =>
      obtain ⟨s0, p, rfl⟩ := Stack.eq_push_of_not_empty s hE
      have hp : Q p := hs p (by simp [Stack.Push])
      have hs0 : ∀ q ∈ s0.entries, Q q := fun q hq => hs q (by simp [Stack.Push, hq])
      have hpath := walkBody_invs_path w ss fn p s0 st
      rw [walkLoop_push]
      cases hb : walkBody w ss fn p s0 st with
      | ret status st1 invs ops =>
        rw [hb] at hpath
        intro x hx
        rw [hpath x hx]
        exact hp
      | next s1 st1 invs ops =>
        rw [hb] at hpath
        have hstack := walkBody_next_stack w ss fn p s0 s1 st st1 invs ops hb
        have hs1 : ∀ q ∈ s1.entries, Q q := by
          intro q hq
          rcases hstack q hq with hq0 | ⟨info, e, hinfo, hdir, hl, he, rfl, _⟩
          · exact hs0 q hq0
          · exact hQ p info e hp hinfo hdir hl (hsub _ e he)
        intro x hx
        simp only [Run.after_trace, List.mem_append] at hx
        rcases hx with hx | hx
        · rw [hpath x hx]
          exact hp
        · exact ih s1 st1 hs1 x hx

theorem append_sep_inj (e e1 t t1 : List Char) (he : ∀ c ∈ e, isSep c = false)
    (he1 : ∀ c ∈ e1, isSep c = false) (h : e ++ '/' :: t = e1 ++ '/' :: t1) :
    e = e1 ∧ t = t1 := by
  induction e generalizing e1 with
  | nil =>
    cases e1 with
    | nil => simpa using h
    | cons c e1 =>
      simp only [List.nil_append, List.cons_append, List.cons.injEq] at h
      have := he1 c (List.mem_cons_self _ _)
      rw [← h.1] at this
      simp [isSep] at this
  | cons c e ih =>
    cases e1 with
    | nil =>
      simp only [List.nil_append, List.cons_append, List.cons.injEq] at h
      have := he c (List.mem_cons_self _ _)
      rw [h.1] at this
      simp [isSep] at this
    | cons c1 e1 =>
      simp only [List.cons_append, List.cons.injEq] at h
      obtain ⟨h1, h2⟩ := ih e1 (fun c hc => he c (List.mem_cons_of_mem _ hc))
        (fun c hc => he1 c (List.mem_cons_of_mem _ hc)) h.2
      exact ⟨by rw [h.1, h1], h2⟩

theorem append_sep_last_inj (a b n l : List Char) (hn : ∀ c ∈ n, isSep c = false)
    (hl : ∀ c ∈ l, isSep c = false) (h : a ++ '/' :: n = b ++ '/' :: l) :
    a = b ∧ n = l := by
  have h1 : n.reverse ++ '/' :: a.reverse = l.reverse ++ '/' :: b.reverse := by
    have := congrArg List.reverse h
    simpa using this
  obtain ⟨h2, h3⟩ := append_sep_inj n.reverse l.reverse a.reverse b.reverse
    (fun c hc => hn c (List.mem_reverse.1 hc)) (fun c hc => hl c (List.mem_reverse.1 hc)) h1
  exact ⟨List.reverse_injective h3, List.reverse_injective h2⟩

theorem Beneath.length_lt {p q : String} (h : Beneath p q) : p.data.length < q.data.length := by
  obtain ⟨rest, _, _, hq⟩ := h
  rw [hq]
  simp

theorem beneath_child (p y n : String) (hn : plainName n.data = true)
    (h : Beneath p (y ++ "/" ++ n)) : y = p ∨ Beneath p y := by
  obtain ⟨rest, hne, hplain, hq⟩ := h
  have hdata : (y ++ "/" ++ n).data = y.data ++ '/' :: n.data := by simp
  rw [hdata] at hq
  have hnsep := ((plainName_iff _).1 hn).2.1
  rcases List.eq_nil_or_concat rest with rfl | ⟨init, l, rfl⟩
  · exact absurd rfl hne
  · have hl : plainName l = true := hplain l (by simp)
    have hlsep := ((plainName_iff _).1 hl).2.1
    rcases List.eq_nil_or_concat init with rfl | ⟨init1, l1, hinit⟩
    · simp only [List.concat_eq_append, List.nil_append, joinElems] at hq
      obtain ⟨h1, _⟩ := append_sep_last_inj _ _ _ _ hnsep hlsep hq
      exact Or.inl (String.ext h1)
    · have hne1 : init ≠ [] := by
        rw [hinit]
        simp
      rw [List.concat_eq_append, joinElems_concat init hne1] at hq
      have hq1 : y.data ++ '/' :: n.data = (p.data ++ '/' :: joinElems init) ++ '/' :: l := by
        rw [hq]
        simp
      obtain ⟨h1, _⟩ := append_sep_last_inj _ _ _ _ hnsep hlsep hq1
      exact Or.inr ⟨init, hne1, fun e he => hplain e (by simp [he]), h1⟩

theorem walk_none_beneath (w : FS ε) (ss : SortSlice) (fn : WalkFunc σ ε)
    (hsub : ∀ l, ∀ e ∈ ss dirFirst l, e ∈ l)
    (hnames : ∀ q, (w.readDir q).2 = none →
      ∀ e ∈ (w.readDir q).1, plainName e.name.data = true)
    (p : String) (hfail : (w.readDir p).2 ≠ none) (root : String) (hroot : PlainPath root)
    (hp : p = root ∨ Beneath root p) (fuel : Nat) (st : σ) :
    ∀ x ∈ (Walk w ss fuel root fn st).trace, ¬ Beneath p x.path := by
  have h := walkLoop_paths_inv w ss fn hsub (fun q => PlainPath q ∧ ¬ Beneath p q) (by
    intro y info e hy _ _ hl he
    obtain ⟨⟨elems, hne, hplain, hdata⟩, hnb⟩ := hy
    have hn := hnames y hl e he
    have hjoin := filepathJoin_plain y e.name elems hne hplain hdata hn
    rw [hjoin]
    refine ⟨⟨elems ++ [e.name.data], by simp, ?_, ?_⟩, ?_⟩
    · intro x hx
      rcases List.mem_append.1 hx with hx | hx
      · exact hplain x hx
      · simp only [List.mem_singleton] at hx
        rw [hx]
        exact hn
    · rw [joinElems_concat elems hne, ← hdata]
      simp
    · intro hb
      rcases beneath_child p y e.name hn hb with rfl | hb1
      · exact hfail hl
      · exact hnb hb1) fuel ((Stack.New : Stack String).Push root) st (by
    intro q hq
    have : q = root := by simpa [Stack.Push, Stack.New] using hq
    subst this
    refine ⟨hroot, ?_⟩
    intro hb
    have h1 := hb.length_lt
    rcases hp with rfl | hp
    · omega
    · have h2 := hp.length_lt
      omega)
  intro x hx
  exact (h x hx).2

theorem skipStore_names :
    ∀ q, (skipStore.readDir q).2 = none →
      ∀ e ∈ (skipStore.readDir q).1, plainName e.name.data = true := by
  intro q _ e he
  simp only [skipStore] at he
  split_ifs at he
  · simp only [List.mem_cons, List.mem_singleton, List.not_mem_nil, or_false] at he
    rcases he with rfl | rfl <;> decide
  all_goals simp at he

/-- C5, a store on which a path beneath the directory is visited: the listing
of `a` names the entries `b`, `b/c` and `d`, the listing of the directory `a/b`
fails and the callback returns true on it; the walk visits `a`, `a/b`, `a/b`
with the list error, then `a/b/c`, which is beneath `a/b`, and `a/d`. -/
theorem walk_list_failure_beneath_visited :
    slashStore.stat "a/b" = (some ⟨"b", true, 0⟩, none) ∧
    slashStore.readDir "a/b" = ([], some MockErr.pathError) ∧
    (Walk slashStore insertionSortFunc 5 "a" (collect true true) ()).status = .done ∧
    (Walk slashStore insertionSortFunc 5 "a" (collect true true) ()).trace
      = [⟨"a", some ⟨"a", true, 0⟩, none, .ret true⟩,
          ⟨"a/b", some ⟨"b", true, 0⟩, none, .ret true⟩,
          ⟨"a/b", some ⟨"b", true, 0⟩, some MockErr.pathError, .ret true⟩,
          ⟨"a/b/c", some ⟨"c", false, 0⟩, none, .ret true⟩,
          ⟨"a/d", some ⟨"d", false, 0⟩, none, .ret true⟩] ∧
    Beneath "a/b" "a/b/c" :=
  ⟨by decide, by decide, by decide, by decide, [['c']], by decide, by decide, by decide⟩

/-- C5 as amended: when the listing of the popped directory `p` fails and the
callback returns true on both invocations, the iteration leaves the stack
beneath as it was, with no child pushed, and the run goes on from that stack;
and in a walk from a root made of plain elements, with `p` the root or beneath
it, on a store whose successful listings name only plain entries, no path
beneath `p` is passed to the callback.  On the tree `a`, `a/b` (listing
fails), `a/b/c`, `a/d` the paths visited are `a`, `a/b`, `a/b` with the list
error, `a/d`. -/
theorem walk_list_failure_skips (w : FS ε) (ss : SortSlice) (fn : WalkFunc σ ε) (fuel : Nat)
    (s : Stack String) (p : String) (st st1 st2 : σ) (info : FileInfo) (serr : Option ε)
    (es : List DirEntry) (le : ε) (hstat : w.stat p = (some info, serr))
    (hdir : info.isDir = true) (hlist : w.readDir p = (es, some le))
    (hfn : fn st p (some info) serr = (.ret true, st1))
    (hfn2 : fn st1 p (some info) (some le) = (.ret true, st2)) :
    walkBody w ss fn p s st
        = .next s st2 [⟨p, some info, serr, .ret true⟩, ⟨p, some info, some le, .ret true⟩]
            [.stat p, .readDir p] ∧
    walkLoop w ss fn (fuel + 1) (s.Push p) st
        = (walkLoop w ss fn fuel s st2).after
            [⟨p, some info, serr, .ret true⟩, ⟨p, some info, some le, .ret true⟩]
            [.stat p, .readDir p] ∧
    ((∀ l, ∀ e ∈ ss dirFirst l, e ∈ l) →
      (∀ q, (w.readDir q).2 = none → ∀ e ∈ (w.readDir q).1, plainName e.name.data = true) →
      ∀ (root : String) (fuel0 : Nat) (st0 : σ), PlainPath root →
        (p = root ∨ Beneath root p) →
        ∀ x ∈ (Walk w ss fuel0 root fn st0).trace, ¬ Beneath p x.path) ∧
    (Walk skipStore insertionSortFunc 4 "a" (collect true true) ()).status = .done ∧
    (Walk skipStore insertionSortFunc 4 "a" (collect true true) ()).trace
        = [⟨"a", some ⟨"a", true, 0⟩, none, .ret true⟩,
            ⟨"a/b", some ⟨"b", true, 0⟩, none, .ret true⟩,
            ⟨"a/b", some ⟨"b", true, 0⟩, some MockErr.pathError, .ret true⟩,
            ⟨"a/d", some ⟨"d", false, 0⟩, none, .ret true⟩] := by
  have hb := walkBody_list_fail w ss fn p s st st1 info serr es le hstat hdir hlist hfn
  simp only [hfn2, CbResult.continues, if_true] at hb
  refine ⟨hb, ?_, ?_, by decide, by decide⟩
  · rw [walkLoop_push, hb]
  · intro hsub hnames root fuel0 st0 hroot hp
    exact walk_none_beneath w ss fn hsub hnames p (by simp [hlist]) root hroot hp fuel0 st0

/-- The witness of `walk_list_failure_skips`: the directory `a/b` of the third
test of walker_test.go, popped with `a/d` pending beneath it; in the walk from
`a` the path `a/d`, which is visited, is not beneath `a/b`. -/
theorem walk_list_failure_skips_witness :
    skipStore.stat "a/b" = (some ⟨"b", true, 0⟩, none) ∧
    skipStore.readDir "a/b" = ([], some MockErr.pathError) ∧
    walkLoop skipStore insertionSortFunc (collect true true) (1 + 1)
        (((Stack.New : Stack String).Push "a/d").Push "a/b") ()
      = (walkLoop skipStore insertionSortFunc (collect true true) 1
            ((Stack.New : Stack String).Push "a/d") ()).after
          [⟨"a/b", some ⟨"b", true, 0⟩, none, .ret true⟩,
            ⟨"a/b", some ⟨"b", true, 0⟩, some MockErr.pathError, .ret true⟩]
          [.stat "a/b", .readDir "a/b"] ∧
    ¬ Beneath "a/b" (⟨"a/d", some ⟨"d", false, 0⟩, none, .ret true⟩ : Invocation MockErr).path :=
  ⟨by decide, by decide,
    (walk_list_failure_skips skipStore insertionSortFunc (collect true true) 1
      ((Stack.New : Stack String).Push "a/d") "a/b" () () () ⟨"b", true, 0⟩ none []
      MockErr.pathError (by decide) rfl (by decide) (by decide) (by decide)).2.1,
    (walk_list_failure_skips skipStore insertionSortFunc (collect true true) 1
      ((Stack.New : Stack String).Push "a/d") "a/b" () () () ⟨"b", true, 0⟩ none []
      MockErr.pathError (by decide) rfl (by decide) (by decide) (by decide)).2.2.1
      (fun l _ he => (List.Perm.mem_iff (insertionSortFunc_perm dirFirst l)).1 he)
      skipStore_names "a" 4 () ⟨[['a']], by decide, by decide, by decide⟩
      (Or.inr ⟨[['b']], by decide, by decide, by decide⟩)
      ⟨"a/d", some ⟨"d", false, 0⟩, none, .ret true⟩ (by decide)⟩

/-- The witness of `mustWalk_calls`: on the tree `a`, `a/b` (listing fails),
`a/b/c`, `a/d` the callback is called for `a/b`, whose stat succeeded. -/
theorem mustWalk_calls_witness :
    skipStore.stat "a/b" = (some ⟨"b", true, 0⟩, none) :=
  (mustWalk_calls skipStore insertionSortFunc (fun st _ _ => (true, st)) 4 "a" ()).2.2.1
    ("a/b", some ⟨"b", true, 0⟩, true) (by decide)

end Walker
